import Mathlib

/-!
Verification of the bencode codec (decoder, encoder, value model, content hash).

The Rust source operates on an immutable byte buffer with a mutable cursor.
We model bytes as natural numbers, a buffer as a list of bytes, and every
decoder operation as a function from (buffer, position) to a pair of an
Except-result and the new cursor position.  Errors keep whatever position the
cursor had when the failure occurred, exactly as the Rust methods leave the
mutated cursor in place when returning Err.
-/

/-- A byte buffer.  Each element is one byte (values are below 256 in every
buffer the Rust code can hold, but none of the decoder logic depends on it). -/
abbrev Bytes := List Nat

/-- Mirror of the DecodeError enumeration. -/
inductive DecodeError where
  | eof
  | extraneousData
  | invalidByte (b : Nat)
  | invalidDict
  | invalidNumber
  | invalidUtf8
  | missingField
  | unexpectedByte (expected found : Nat)
deriving DecidableEq, Repr

instance {ε α : Type} [DecidableEq ε] [DecidableEq α] : DecidableEq (Except ε α) := fun a b =>
  match a, b with
  | .ok x, .ok y =>
    if h : x = y then .isTrue (by rw [h]) else .isFalse (by intro hc; cases hc; exact h rfl)
  | .error x, .error y =>
    if h : x = y then .isTrue (by rw [h]) else .isFalse (by intro hc; cases hc; exact h rfl)
  | .ok _, .error _ => .isFalse (by intro hc; cases hc)
  | .error _, .ok _ => .isFalse (by intro hc; cases hc)

/-- Result of a decoder operation: the Rust return value together with the
cursor position after the call (errors leave the cursor wherever the failing
operation moved it). -/
abbrev Res (α : Type) := Except DecodeError α × Nat

/-- Decoder::remaining -/
def remaining (data : Bytes) (pos : Nat) : Nat := data.length - pos

/-- Decoder::set_position: Cursor::set_position performs no bounds check. -/
def setPosition (_data : Bytes) (newPos : Nat) (_pos : Nat) : Res Unit :=
  (.ok (), newPos)

/-- Decoder::finish -/
def finish (data : Bytes) (pos : Nat) : Except DecodeError Unit :=
  if remaining data pos = 0 then .ok () else .error .extraneousData

/-- Decoder::read.  Cursor::read copies min(n, remaining) bytes and advances
by that amount; the method errors with Eof unless exactly n were read.
(Named readBuf because plain read clashes with an unrelated library name.) -/
def readBuf (data : Bytes) (n : Nat) (pos : Nat) : Res Bytes :=
  if n ≤ data.length - pos then (.ok ((data.drop pos).take n), pos + n)
  else (.error .eof, pos + (data.length - pos))

/-- Decoder::read_byte -/
def readByte (data : Bytes) (pos : Nat) : Res Nat :=
  match readBuf data 1 pos with
  | (.ok l, p) => (.ok (l.headD 0), p)
  | (.error e, p) => (.error e, p)

/-- Decoder::peek_byte -/
def peekByte (data : Bytes) (pos : Nat) : Res Nat :=
  if pos < data.length then (.ok (data.getD pos 0), pos) else (.error .eof, pos)

/-- Decoder::peek_bytes -/
def peekBytes (data : Bytes) (n : Nat) (pos : Nat) : Res Bytes :=
  if data.length < pos + n then (.error .eof, pos)
  else (.ok ((data.drop pos).take n), pos)

/-- Decoder::expect -/
def expectB (data : Bytes) (byte : Nat) (pos : Nat) : Res Unit :=
  match readByte data pos with
  | (.error e, p) => (.error e, p)
  | (.ok b, p) => if b = byte then (.ok (), p) else (.error (.unexpectedByte byte b), p)

/-- Decoder::skip -/
def skip (data : Bytes) (n : Nat) (pos : Nat) : Res Unit :=
  if data.length < pos + n then (.error .eof, pos) else (.ok (), pos + n)

/-- Loop body shared by read_while and skip_while: peek a byte (Eof if the
buffer is exhausted while the predicate still holds), stop before the first
byte failing the predicate, collecting the run.  The returned Nat is the
number of bytes consumed. -/
def readWhileAux (p : Nat → Bool) : Bytes → Except DecodeError Bytes × Nat
  | [] => (.error .eof, 0)
  | b :: rest =>
    if p b then
      match readWhileAux p rest with
      | (.ok run, c) => (.ok (b :: run), c + 1)
      | (.error e, c) => (.error e, c + 1)
    else (.ok [], 0)

/-- Decoder::read_while -/
def readWhile (p : Nat → Bool) (data : Bytes) (pos : Nat) : Res Bytes :=
  let r := readWhileAux p (data.drop pos)
  (r.1, pos + r.2)

/-- Decoder::skip_while: same consumption as read_while, discarding the run. -/
def skipWhile (p : Nat → Bool) (data : Bytes) (pos : Nat) : Res Unit :=
  match readWhile p data pos with
  | (.ok _, q) => (.ok (), q)
  | (.error e, q) => (.error e, q)

/-- is_number: bytes allowed inside a bencode number run. -/
def isNumber (b : Nat) : Bool := b = 45 || (48 ≤ b && b ≤ 57)

/-- Parse a nonempty all-digit run into a Nat (helper shared by the integer
parsers; mirrors the digit-accumulation of Rust FromStr). -/
def parseDigits (l : Bytes) : Option Nat :=
  if !l.isEmpty && l.all (fun c => 48 ≤ c && c ≤ 57) then
    some (l.foldl (fun a c => a * 10 + (c - 48)) 0)
  else none

/-- str::parse for i64: optional minus sign, digits, two's-complement range
check (accepting magnitudes up to 2^63 for negatives, 2^63 - 1 otherwise). -/
def parseI64 (l : Bytes) : Option Int :=
  if l.head? = some 45 then
    match parseDigits l.tail with
    | some n => if n ≤ 2 ^ 63 then some (-(n : Int)) else none
    | none => none
  else
    match parseDigits l with
    | some n => if n < 2 ^ 63 then some (n : Int) else none
    | none => none

/-- str::parse for usize (64-bit target): digits only, range check. -/
def parseUsize (l : Bytes) : Option Nat :=
  match parseDigits l with
  | some n => if n < 2 ^ 64 then some n else none
  | none => none

/-- Decimal digits of a positive number, most significant first; the fuel
argument only drives the recursion (any fuel at least the value works). -/
def natDecimalAux : Nat → Nat → Bytes
  | 0, _ => []
  | _ + 1, 0 => []
  | f + 1, n + 1 => natDecimalAux f ((n + 1) / 10) ++ [(n + 1) % 10 + 48]

/-- Decimal rendering of a Nat, as produced by Rust Display. -/
def natDecimal (n : Nat) : Bytes := if n = 0 then [48] else natDecimalAux n n

/-- Decimal rendering of an Int, as produced by Rust Display for i64. -/
def intDecimal (i : Int) : Bytes :=
  if i < 0 then 45 :: natDecimal i.natAbs else natDecimal i.natAbs

/-- Decoder::read_number, generic over the Integer target type by taking its
parse function.  (String::from_utf8 on the run never fails because is_number
bytes are ASCII, so it is not modelled as a failure point.) -/
def readNumber {α : Type} (parse : Bytes → Option α) (data : Bytes) (pos : Nat) : Res α :=
  match readWhile isNumber data pos with
  | (.error e, p) => (.error e, p)
  | (.ok buf, p) =>
    if buf = [] ∨ (1 < buf.length ∧ buf.head? = some 48) ∨ buf = [45, 48] then
      (.error .invalidNumber, p)
    else
      match parse buf with
      | some n => (.ok n, p)
      | none => (.error .invalidNumber, p)

/-- Decoder::read_integer -/
def readInteger {α : Type} (parse : Bytes → Option α) (data : Bytes) (pos : Nat) : Res α :=
  match expectB data 105 pos with
  | (.error e, p) => (.error e, p)
  | (.ok _, p) =>
    match readNumber parse data p with
    | (.error e, p2) => (.error e, p2)
    | (.ok n, p2) =>
      match expectB data 101 p2 with
      | (.error e, p3) => (.error e, p3)
      | (.ok _, p3) => (.ok n, p3)

/-- Decoder::read_bytes -/
def readBytes (data : Bytes) (pos : Nat) : Res Bytes :=
  match readNumber parseUsize data pos with
  | (.error e, p) => (.error e, p)
  | (.ok n, p) =>
    match expectB data 58 p with
    | (.error e, p2) => (.error e, p2)
    | (.ok _, p2) =>
      if remaining data p2 < n then (.error .eof, p2)
      else readBuf data n p2

/-- Whether a byte is a UTF-8 continuation byte. -/
def isCont (b : Nat) : Bool := 128 ≤ b && b ≤ 191

/-- UTF-8 validity of a byte sequence, as checked by String::from_utf8
(RFC 3629: no overlong forms, no surrogates, at most U+10FFFF). -/
def validUtf8 : Bytes → Bool
  | [] => true
  | b :: rest =>
    if b ≤ 127 then validUtf8 rest
    else if 194 ≤ b && b ≤ 223 then
      match rest with
      | c1 :: r => isCont c1 && validUtf8 r
      | [] => false
    else if b = 224 then
      match rest with
      | c1 :: c2 :: r => (160 ≤ c1 && c1 ≤ 191) && isCont c2 && validUtf8 r
      | _ => false
    else if 225 ≤ b && b ≤ 236 then
      match rest with
      | c1 :: c2 :: r => isCont c1 && isCont c2 && validUtf8 r
      | _ => false
    else if b = 237 then
      match rest with
      | c1 :: c2 :: r => (128 ≤ c1 && c1 ≤ 159) && isCont c2 && validUtf8 r
      | _ => false
    else if 238 ≤ b && b ≤ 239 then
      match rest with
      | c1 :: c2 :: r => isCont c1 && isCont c2 && validUtf8 r
      | _ => false
    else if b = 240 then
      match rest with
      | c1 :: c2 :: c3 :: r => (144 ≤ c1 && c1 ≤ 191) && isCont c2 && isCont c3 && validUtf8 r
      | _ => false
    else if 241 ≤ b && b ≤ 243 then
      match rest with
      | c1 :: c2 :: c3 :: r => isCont c1 && isCont c2 && isCont c3 && validUtf8 r
      | _ => false
    else if b = 244 then
      match rest with
      | c1 :: c2 :: c3 :: r => (128 ≤ c1 && c1 ≤ 143) && isCont c2 && isCont c3 && validUtf8 r
      | _ => false
    else false

/-- Decoder::read_str.  A Rust String is modelled by its UTF-8 byte content. -/
def readStr (data : Bytes) (pos : Nat) : Res Bytes :=
  match readBytes data pos with
  | (.error e, p) => (.error e, p)
  | (.ok b, p) => if validUtf8 b then (.ok b, p) else (.error .invalidUtf8, p)

/-- Byte-lexicographic strict order on byte strings: the order used by Rust
slice/str/String comparisons (`<`, `<=`) and by BTreeMap over String keys. -/
def bytesLt : Bytes → Bytes → Bool
  | [], [] => false
  | [], _ :: _ => true
  | _ :: _, [] => false
  | a :: as, b :: bs => if a < b then true else if b < a then false else bytesLt as bs

/-- Byte-lexicographic non-strict order (slice `<=`). -/
def bytesLe (a b : Bytes) : Bool := bytesLt a b || a = b

/-- Mirror of the Value enumeration.  Strings (the String variant and dict
keys) are represented by their UTF-8 byte content; the Dict variant is the
BTreeMap represented by its key-sorted association list. -/
inductive Value where
  | integer (n : Int)
  | bytes (b : Bytes)
  | str (s : Bytes)
  | list (l : List Value)
  | dict (d : List (Bytes × Value))

/-- BTreeMap::insert on the sorted association-list representation: place the
new key at its ordered position, replacing an equal key. -/
def btreeInsert : List (Bytes × Value) → Bytes → Value → List (Bytes × Value)
  | [], k, v => [(k, v)]
  | (k0, v0) :: rest, k, v =>
    if bytesLt k k0 then (k, v) :: (k0, v0) :: rest
    else if k = k0 then (k, v) :: rest
    else (k0, v0) :: btreeInsert rest k v

/-- Strictly ascending byte-lexicographic key order (the BTreeMap iteration
invariant for the association-list representation), stated pairwise. -/
def keysSorted (ks : List Bytes) : Prop :=
  List.Pairwise (fun a b => bytesLt a b = true) ks

instance : DecidablePred keysSorted := fun ks =>
  List.instDecidablePairwise ks

/-- Encoder::write_bytes / write_str output: decimal length, colon, raw bytes. -/
def encodeBytesStr (b : Bytes) : Bytes := natDecimal b.length ++ 58 :: b

mutual
/-- Encodable::encode for Value: write_integer / write_bytes / write_str /
write_list / write_dict, producing the Encoder buffer contents. -/
def encodeValue : Value → Bytes
  | .integer n => 105 :: intDecimal n ++ [101]
  | .bytes b => encodeBytesStr b
  | .str s => encodeBytesStr s
  | .list l => 108 :: encodeList l ++ [101]
  | .dict d => 100 :: encodeDict d ++ [101]

/-- Encoder::write_list body: each element encoding in order. -/
def encodeList : List Value → Bytes
  | [] => []
  | v :: vs => encodeValue v ++ encodeList vs

/-- Encoder::write_dict body: each key as a string then its value encoding,
in the map's (sorted) iteration order. -/
def encodeDict : List (Bytes × Value) → Bytes
  | [] => []
  | (k, v) :: rest => encodeBytesStr k ++ encodeValue v ++ encodeDict rest
end

mutual
/-- Well-formedness a Rust Value has by construction: Integer holds an i64,
String holds valid UTF-8 of Vec length, Bytes holds a Vec, Dict is a BTreeMap
of String keys (valid UTF-8, strictly sorted, and unique). -/
def wfValue : Value → Bool
  | .integer n => decide (-(2 ^ 63 : Int) ≤ n ∧ n < 2 ^ 63)
  | .bytes b => decide (b.length < 2 ^ 64)
  | .str s => validUtf8 s && decide (s.length < 2 ^ 64)
  | .list l => wfList l
  | .dict d => wfEntries d && decide (keysSorted (d.map Prod.fst))

def wfList : List Value → Bool
  | [] => true
  | v :: vs => wfValue v && wfList vs

def wfEntries : List (Bytes × Value) → Bool
  | [] => true
  | (k, v) :: rest =>
    validUtf8 k && decide (k.length < 2 ^ 64) && wfValue v && wfEntries rest
end

mutual
/-- Decodable::decode for Value: dispatch on the peeked lead byte.  The fuel
argument only drives the recursion; exhaustion reports Eof (any fuel above
the remaining buffer length is never exhausted). -/
def decodeValueF (data : Bytes) : Nat → Nat → Res Value
  | 0, pos => (.error .eof, pos)
  | f + 1, pos =>
    match peekByte data pos with
    | (.error e, p) => (.error e, p)
    | (.ok b, _) =>
      if b = 100 then
        match expectB data 100 pos with
        | (.error e, p) => (.error e, p)
        | (.ok _, p) =>
          match dictLoopF data f [] p with
          | (.error e, p2) => (.error e, p2)
          | (.ok entries, p2) => (.ok (.dict entries), p2)
      else if b = 105 then
        match readInteger parseI64 data pos with
        | (.error e, p) => (.error e, p)
        | (.ok n, p) => (.ok (.integer n), p)
      else if b = 108 then
        match expectB data 108 pos with
        | (.error e, p) => (.error e, p)
        | (.ok _, p) =>
          match listLoopF data f [] p with
          | (.error e, p2) => (.error e, p2)
          | (.ok l, p2) => (.ok (.list l), p2)
      else if 48 ≤ b ∧ b ≤ 57 then
        match readBytes data pos with
        | (.error e, p) => (.error e, p)
        | (.ok s, p) => (.ok (if validUtf8 s then .str s else .bytes s), p)
      else (.error (.invalidByte b), pos)
termination_by structural f _ => f

/-- Decoder::read_dict loop (after the opening d): while the next byte is not
e, read a string key, require it to exceed the map's greatest key, decode a
value, insert; finally consume the closing e.  The accumulator is the
BTreeMap built so far (key-sorted association list, so keys().next_back() is
its last element). -/
def dictLoopF (data : Bytes) : Nat → List (Bytes × Value) → Nat → Res (List (Bytes × Value))
  | 0, _, pos => (.error .eof, pos)
  | f + 1, acc, pos =>
    match peekByte data pos with
    | (.error e, p) => (.error e, p)
    | (.ok b, _) =>
      if b = 101 then
        match expectB data 101 pos with
        | (.error e, p) => (.error e, p)
        | (.ok _, p) => (.ok acc, p)
      else
        match readStr data pos with
        | (.error e, p) => (.error e, p)
        | (.ok k, p1) =>
          if (match (acc.map Prod.fst).getLast? with
              | some lk => bytesLe k lk
              | none => false) then
            (.error .invalidDict, p1)
          else
            match decodeValueF data f p1 with
            | (.error e, p2) => (.error e, p2)
            | (.ok v, p2) => dictLoopF data f (btreeInsert acc k v) p2
termination_by structural f _ _ => f

/-- Decoder::read_list loop (after the opening l): decode elements while the
next byte is not e, then consume the closing e. -/
def listLoopF (data : Bytes) : Nat → List Value → Nat → Res (List Value)
  | 0, _, pos => (.error .eof, pos)
  | f + 1, acc, pos =>
    match peekByte data pos with
    | (.error e, p) => (.error e, p)
    | (.ok b, _) =>
      if b = 101 then
        match expectB data 101 pos with
        | (.error e, p) => (.error e, p)
        | (.ok _, p) => (.ok acc, p)
      else
        match decodeValueF data f pos with
        | (.error e, p) => (.error e, p)
        | (.ok v, p) => listLoopF data f (acc ++ [v]) p
termination_by structural f _ _ => f
end

mutual
/-- Decoder::skip_item: classify the next value by its lead byte and consume
it without materializing it.  Fuel drives the recursion (exhaustion reports
Eof and is never reached with fuel above the remaining buffer length). -/
def skipItemF (data : Bytes) : Nat → Nat → Res Unit
  | 0, pos => (.error .eof, pos)
  | f + 1, pos =>
    match peekByte data pos with
    | (.error e, p) => (.error e, p)
    | (.ok b, _) =>
      if b = 100 then
        match readByte data pos with
        | (.error e, p) => (.error e, p)
        | (.ok _, p) => skipPairsF data f p
      else if b = 105 then
        match expectB data 105 pos with
        | (.error e, p) => (.error e, p)
        | (.ok _, p) =>
          match skipWhile isNumber data p with
          | (.error e, p2) => (.error e, p2)
          | (.ok _, p2) => expectB data 101 p2
      else if b = 108 then
        match readByte data pos with
        | (.error e, p) => (.error e, p)
        | (.ok _, p) => skipListF data f p
      else if 48 ≤ b ∧ b ≤ 57 then
        match readNumber parseUsize data pos with
        | (.error e, p) => (.error e, p)
        | (.ok n, p) =>
          match expectB data 58 p with
          | (.error e, p2) => (.error e, p2)
          | (.ok _, p2) => skip data n p2
      else (.error (.invalidByte b), pos)
termination_by structural f _ => f

/-- skip_item dict branch loop: skip key/value pairs until the closing e,
then consume it. -/
def skipPairsF (data : Bytes) : Nat → Nat → Res Unit
  | 0, pos => (.error .eof, pos)
  | f + 1, pos =>
    match peekByte data pos with
    | (.error e, p) => (.error e, p)
    | (.ok b, _) =>
      if b = 101 then expectB data 101 pos
      else
        match skipItemF data f pos with
        | (.error e, p) => (.error e, p)
        | (.ok _, p) =>
          match skipItemF data f p with
          | (.error e, p2) => (.error e, p2)
          | (.ok _, p2) => skipPairsF data f p2
termination_by structural f _ => f

/-- skip_item list branch loop: skip elements until the closing e, then
consume it. -/
def skipListF (data : Bytes) : Nat → Nat → Res Unit
  | 0, pos => (.error .eof, pos)
  | f + 1, pos =>
    match peekByte data pos with
    | (.error e, p) => (.error e, p)
    | (.ok b, _) =>
      if b = 101 then expectB data 101 pos
      else
        match skipItemF data f pos with
        | (.error e, p) => (.error e, p)
        | (.ok _, p) => skipListF data f p
termination_by structural f _ => f
end

/-- Decoder::read_field scan loop.  start is the saved position from the top
of read_field; decT is the Decodable::decode of the field type.  On the final
two exits (closing e, or a key lexicographically past the wanted name) the
cursor is restored to start; every inner failure propagates with the cursor
wherever the failing read left it. -/
def readFieldLoop {α : Type} (decT : Bytes → Nat → Res α) (data : Bytes)
    (start : Nat) (name : Bytes) : Nat → Nat → Res α
  | 0, pos => (.error .eof, pos)
  | f + 1, pos =>
    match peekByte data pos with
    | (.error e, p) => (.error e, p)
    | (.ok b, _) =>
      if b = 101 then (.error .missingField, start)
      else
        match readStr data pos with
        | (.error e, p) => (.error e, p)
        | (.ok key, p1) =>
          if key = name then decT data p1
          else if bytesLt key name then
            match skipItemF data f p1 with
            | (.error e, p2) => (.error e, p2)
            | (.ok _, p2) => readFieldLoop decT data start name f p2
          else (.error .missingField, start)
termination_by structural f _ => f

/-- Decoder::read_field: save the position, scan forward. -/
def readField {α : Type} (decT : Bytes → Nat → Res α) (f : Nat) (name : Bytes)
    (data : Bytes) (pos : Nat) : Res α :=
  readFieldLoop decT data pos name f pos

/-- Decodable::decode for Hash, with the opaque digest primitive passed in:
record the position, skip one value, digest the raw range between the two
positions (via set_position + peek_bytes), restore the post-skip position. -/
def hashDecode (digest : Bytes → Bytes) (fuel : Nat) (data : Bytes) (pos : Nat) : Res Bytes :=
  match skipItemF data fuel pos with
  | (.error e, p) => (.error e, p)
  | (.ok _, endPos) =>
    match peekBytes data (endPos - pos) pos with
    | (.error e, p) => (.error e, p)
    | (.ok range, _) => (.ok (digest range), endPos)

/-- The decode entry point for Value: fresh Decoder, Decodable::decode, then
finish.  The fuel data.length + 1 exceeds the remaining buffer length at
every recursive step, so exhaustion never occurs. -/
def decodeV (data : Bytes) : Except DecodeError Value :=
  match decodeValueF data (data.length + 1) 0 with
  | (.error e, _) => .error e
  | (.ok v, p) =>
    match finish data p with
    | .ok _ => .ok v
    | .error e => .error e

/-! Lemmas about the primitive readers, stated through the suffix of the
buffer that starts at the cursor position. -/

lemma drop_pos_lt {data : Bytes} {pos b : Nat} {t : Bytes}
    (h : data.drop pos = b :: t) : pos < data.length := by
  by_contra hle
  rw [List.drop_eq_nil_iff.mpr (by omega)] at h
  exact List.noConfusion h

lemma drop_shift {data : Bytes} {pos : Nat} {mid t : Bytes}
    (h : data.drop pos = mid ++ t) : data.drop (pos + mid.length) = t := by
  rw [← List.drop_drop, h, List.drop_left]

lemma length_sub_of_drop {data : Bytes} {pos : Nat} {t : Bytes}
    (h : data.drop pos = t) : data.length - pos = t.length := by
  have := congrArg List.length h
  simpa using this

lemma getD_of_drop {data : Bytes} {pos b : Nat} {t : Bytes}
    (h : data.drop pos = b :: t) : data.getD pos 0 = b := by
  have h0 : (data.drop pos)[0]? = some b := by rw [h]; simp
  rw [List.getElem?_drop] at h0
  rw [List.getD_eq_getElem?_getD]
  simpa using congrArg (fun o => o.getD 0) h0

lemma peekByte_cons {data : Bytes} {pos b : Nat} {t : Bytes}
    (h : data.drop pos = b :: t) : peekByte data pos = (.ok b, pos) := by
  rw [peekByte, if_pos (drop_pos_lt h), getD_of_drop h]

lemma peekByte_nil {data : Bytes} {pos : Nat}
    (h : data.drop pos = []) : peekByte data pos = (.error .eof, pos) := by
  have := List.drop_eq_nil_iff.mp h
  rw [peekByte, if_neg (by omega)]

lemma read_exact (mid t : Bytes) {data : Bytes} {pos : Nat}
    (h : data.drop pos = mid ++ t) :
    readBuf data mid.length pos = (.ok mid, pos + mid.length) := by
  have hlen : data.length - pos = mid.length + t.length := by
    simpa using length_sub_of_drop h
  unfold readBuf
  rw [if_pos (show mid.length ≤ data.length - pos by omega), h, List.take_left]

lemma readByte_cons {data : Bytes} {pos b : Nat} {t : Bytes}
    (h : data.drop pos = b :: t) : readByte data pos = (.ok b, pos + 1) := by
  have h1 := read_exact [b] t (by simpa using h)
  simp only [List.length_cons, List.length_nil] at h1
  unfold readByte
  rw [h1]
  rfl

lemma readByte_nil {data : Bytes} {pos : Nat}
    (h : data.drop pos = []) : readByte data pos = (.error .eof, pos) := by
  have hlen : data.length - pos = 0 := by simpa using length_sub_of_drop h
  unfold readByte readBuf
  rw [hlen]
  simp

lemma expectB_cons_eq {data : Bytes} {pos b : Nat} {t : Bytes}
    (h : data.drop pos = b :: t) : expectB data b pos = (.ok (), pos + 1) := by
  unfold expectB
  rw [readByte_cons h]
  simp

lemma expectB_cons_ne {data : Bytes} {pos b c : Nat} {t : Bytes}
    (h : data.drop pos = b :: t) (hne : b ≠ c) :
    expectB data c pos = (.error (.unexpectedByte c b), pos + 1) := by
  unfold expectB
  rw [readByte_cons h]
  simp [hne]

lemma expectB_nil {data : Bytes} {pos c : Nat}
    (h : data.drop pos = []) : expectB data c pos = (.error .eof, pos) := by
  unfold expectB
  rw [readByte_nil h]

lemma readWhileAux_block {p : Nat → Bool} {run : Bytes} {b : Nat} {t : Bytes}
    (hrun : ∀ c ∈ run, p c = true) (hb : p b = false) :
    readWhileAux p (run ++ b :: t) = (.ok run, run.length) := by
  induction run with
  | nil => simp [readWhileAux, hb]
  | cons a rest ih =>
    have ha : p a = true := hrun a (by simp)
    have := ih (fun c hc => hrun c (by simp [hc]))
    simp [readWhileAux, ha, this]

lemma readWhile_block {p : Nat → Bool} {data : Bytes} {pos : Nat} {run : Bytes}
    {b : Nat} {t : Bytes} (h : data.drop pos = run ++ b :: t)
    (hrun : ∀ c ∈ run, p c = true) (hb : p b = false) :
    readWhile p data pos = (.ok run, pos + run.length) := by
  rw [readWhile, h, readWhileAux_block hrun hb]

/-! Decimal rendering and parsing round-trips. -/

lemma natDecimalAux_spec :
    ∀ f n, 0 < n → n ≤ f →
      natDecimalAux f n ≠ [] ∧
      (∀ c ∈ natDecimalAux f n, 48 ≤ c ∧ c ≤ 57) ∧
      (natDecimalAux f n).head? ≠ some 48 ∧
      (natDecimalAux f n).foldl (fun a c => a * 10 + (c - 48)) 0 = n := by
  intro f
  induction f with
  | zero => intro n h1 h2; omega
  | succ f ih =>
    intro n h1 h2
    obtain ⟨m, rfl⟩ : ∃ m, n = m + 1 := ⟨n - 1, by omega⟩
    rw [natDecimalAux]
    by_cases hsmall : (m + 1) / 10 = 0
    · have hm : m + 1 ≤ 9 := by omega
      have hz : natDecimalAux f ((m + 1) / 10) = [] := by
        rw [hsmall]; cases f <;> rfl
      rw [hz]
      have hmod : (m + 1) % 10 = m + 1 := Nat.mod_eq_of_lt (by omega)
      refine ⟨by simp, ?_, ?_, ?_⟩
      · intro c hc; simp at hc; omega
      · simp only [List.nil_append, List.head?_cons, ne_eq, Option.some.injEq]
        omega
      · simp only [List.nil_append, List.foldl_cons, List.foldl_nil]
        omega
    · have hq1 : 0 < (m + 1) / 10 := by omega
      have hq2 : (m + 1) / 10 ≤ f := by
        have := Nat.div_le_self (m + 1) 10
        have h10 : (m + 1) / 10 < m + 1 := Nat.div_lt_self (by omega) (by omega)
        omega
      obtain ⟨hne, hdig, hhead, hfold⟩ := ih ((m + 1) / 10) hq1 hq2
      refine ⟨by simp, ?_, ?_, ?_⟩
      · intro c hc
        rcases List.mem_append.mp hc with hc | hc
        · exact hdig c hc
        · simp at hc
          have := Nat.mod_lt (m + 1) (show 0 < 10 by omega)
          omega
      · obtain ⟨a, rest, hrep⟩ := List.exists_cons_of_ne_nil hne
        rw [hrep]
        rw [hrep] at hhead
        simpa using hhead
      · rw [List.foldl_append, hfold]
        simp only [List.foldl_cons, List.foldl_nil]
        omega

lemma natDecimal_ne_nil (n : Nat) : natDecimal n ≠ [] := by
  unfold natDecimal
  split
  · simp
  · exact (natDecimalAux_spec n n (by omega) le_rfl).1

lemma natDecimal_digits (n : Nat) : ∀ c ∈ natDecimal n, 48 ≤ c ∧ c ≤ 57 := by
  unfold natDecimal
  split
  · intro c hc; simp at hc; omega
  · exact (natDecimalAux_spec n n (by omega) le_rfl).2.1

lemma parseDigits_natDecimal (n : Nat) : parseDigits (natDecimal n) = some n := by
  by_cases h : n = 0
  · subst h; rfl
  · unfold natDecimal
    rw [if_neg h]
    obtain ⟨hne, hdig, _, hfold⟩ := natDecimalAux_spec n n (by omega) le_rfl
    have hcond : (!(natDecimalAux n n).isEmpty &&
        (natDecimalAux n n).all (fun c => 48 ≤ c && c ≤ 57)) = true := by
      rw [Bool.and_eq_true]
      constructor
      · simpa [List.isEmpty_iff] using hne
      · rw [List.all_eq_true]
        intro c hc
        have := hdig c hc
        simp only [Bool.and_eq_true, decide_eq_true_eq]
        omega
    unfold parseDigits
    rw [if_pos hcond, hfold]

lemma natDecimal_no_leading (n : Nat) :
    ¬(1 < (natDecimal n).length ∧ (natDecimal n).head? = some 48) := by
  unfold natDecimal
  split
  · simp
  · intro ⟨_, hh⟩
    exact (natDecimalAux_spec n n (by omega) le_rfl).2.2.1 hh

lemma natDecimal_eq_zero_iff (n : Nat) : natDecimal n = [48] ↔ n = 0 := by
  constructor
  · intro h
    have := parseDigits_natDecimal n
    rw [h] at this
    have h48 : parseDigits [48] = some 0 := rfl
    rw [h48] at this
    exact (Option.some_inj.mp this).symm
  · intro h; subst h; rfl

/-! Facts about is_number and the decimal encodings of integers. -/

lemma isNumber_digit {c : Nat} (h1 : 48 ≤ c) (h2 : c ≤ 57) : isNumber c = true := by
  unfold isNumber
  simp
  omega

lemma isNumber_58 : isNumber 58 = false := rfl

lemma isNumber_101 : isNumber 101 = false := rfl

lemma natDecimal_isNumber (n : Nat) : ∀ c ∈ natDecimal n, isNumber c = true := by
  intro c hc
  obtain ⟨h1, h2⟩ := natDecimal_digits n c hc
  exact isNumber_digit h1 h2

lemma intDecimal_isNumber (i : Int) : ∀ c ∈ intDecimal i, isNumber c = true := by
  intro c hc
  unfold intDecimal at hc
  split at hc
  · rcases List.mem_cons.mp hc with rfl | hc
    · rfl
    · exact natDecimal_isNumber _ c hc
  · exact natDecimal_isNumber _ c hc

lemma natDecimal_head_digit (n : Nat) :
    ∃ c rest, natDecimal n = c :: rest ∧ 48 ≤ c ∧ c ≤ 57 := by
  obtain ⟨c, rest, hrep⟩ := List.exists_cons_of_ne_nil (natDecimal_ne_nil n)
  refine ⟨c, rest, hrep, ?_⟩
  have : c ∈ natDecimal n := by rw [hrep]; simp
  exact natDecimal_digits n c this

lemma natDecimal_ne_neg_zero (n : Nat) : natDecimal n ≠ [45, 48] := by
  intro h
  obtain ⟨c, rest, hrep, h1, _⟩ := natDecimal_head_digit n
  rw [hrep] at h
  have : c = 45 := by simpa using congrArg List.head? h
  omega

/-- The canonical-form test of read_number accepts the decimal rendering of
any Nat. -/
lemma readNumber_check_nat (n : Nat) :
    ¬(natDecimal n = [] ∨
      (1 < (natDecimal n).length ∧ (natDecimal n).head? = some 48) ∨
      natDecimal n = [45, 48]) := by
  push_neg
  exact ⟨natDecimal_ne_nil n, fun hl hh => natDecimal_no_leading n ⟨hl, hh⟩,
    natDecimal_ne_neg_zero n⟩

/-- The canonical-form test of read_number accepts the decimal rendering of
any Int. -/
lemma readNumber_check_int (i : Int) :
    ¬(intDecimal i = [] ∨
      (1 < (intDecimal i).length ∧ (intDecimal i).head? = some 48) ∨
      intDecimal i = [45, 48]) := by
  unfold intDecimal
  split
  · rename_i hneg
    push_neg
    refine ⟨by simp, ?_, ?_⟩
    · intro _
      simp
    · intro h
      have h2 : natDecimal i.natAbs = [48] := by
        simpa using congrArg List.tail h
      rw [natDecimal_eq_zero_iff] at h2
      omega
  · exact readNumber_check_nat _

lemma parseUsize_natDecimal {n : Nat} (h : n < 2 ^ 64) :
    parseUsize (natDecimal n) = some n := by
  unfold parseUsize
  rw [parseDigits_natDecimal]
  dsimp only
  rw [if_pos h]

lemma parseI64_intDecimal {i : Int} (h1 : -(2 ^ 63) ≤ i) (h2 : i < 2 ^ 63) :
    parseI64 (intDecimal i) = some i := by
  unfold intDecimal parseI64
  by_cases hneg : i < 0
  · rw [if_pos hneg]
    simp only [List.head?_cons, List.tail_cons, if_pos rfl]
    rw [parseDigits_natDecimal]
    have hle : i.natAbs ≤ 2 ^ 63 := by omega
    simp only [hle, if_pos, ite_true]
    congr 1
    omega
  · rw [if_neg hneg]
    have hhead : ¬((natDecimal i.natAbs).head? = some 45) := by
      obtain ⟨c, rest, hrep, hc1, hc2⟩ := natDecimal_head_digit i.natAbs
      rw [hrep]
      simp
      omega
    rw [if_neg hhead, parseDigits_natDecimal]
    have hlt : i.natAbs < 2 ^ 63 := by omega
    simp only [hlt, ite_true]
    congr 1
    omega

/-! Reading the wire form of numbers and byte strings. -/

lemma readNumber_natDecimal {data : Bytes} {pos n b : Nat} {t : Bytes}
    (h : data.drop pos = natDecimal n ++ b :: t) (hb : isNumber b = false)
    (hlt : n < 2 ^ 64) :
    readNumber parseUsize data pos = (.ok n, pos + (natDecimal n).length) := by
  unfold readNumber
  rw [readWhile_block h (natDecimal_isNumber n) hb]
  dsimp only
  rw [if_neg (readNumber_check_nat n), parseUsize_natDecimal hlt]

lemma readNumber_intDecimal {data : Bytes} {pos : Nat} {i : Int} {b : Nat} {t : Bytes}
    (h : data.drop pos = intDecimal i ++ b :: t) (hb : isNumber b = false)
    (h1 : -(2 ^ 63) ≤ i) (h2 : i < 2 ^ 63) :
    readNumber parseI64 data pos = (.ok i, pos + (intDecimal i).length) := by
  unfold readNumber
  rw [readWhile_block h (intDecimal_isNumber i) hb]
  dsimp only
  rw [if_neg (readNumber_check_int i), parseI64_intDecimal h1 h2]

lemma readBytes_encoded {data : Bytes} {pos : Nat} {s t : Bytes}
    (h : data.drop pos = encodeBytesStr s ++ t) (hlen : s.length < 2 ^ 64) :
    readBytes data pos = (.ok s, pos + (encodeBytesStr s).length) := by
  have h1 : data.drop pos = natDecimal s.length ++ 58 :: (s ++ t) := by
    simpa [encodeBytesStr] using h
  unfold readBytes
  rw [readNumber_natDecimal h1 isNumber_58 hlen]
  dsimp only
  have h2 : data.drop (pos + (natDecimal s.length).length) = 58 :: (s ++ t) :=
    drop_shift h1
  rw [expectB_cons_eq h2]
  dsimp only
  have h3 : data.drop (pos + (natDecimal s.length).length + 1) = s ++ t := by
    have := drop_shift (show data.drop (pos + (natDecimal s.length).length)
      = [58] ++ (s ++ t) by simpa using h2)
    simpa using this
  have hrem : remaining data (pos + (natDecimal s.length).length + 1)
      = s.length + t.length := by
    unfold remaining
    simpa using length_sub_of_drop h3
  rw [hrem, if_neg (by omega), read_exact s t h3]
  have : (encodeBytesStr s).length = (natDecimal s.length).length + 1 + s.length := by
    simp [encodeBytesStr]
    omega
  rw [this]
  congr 1
  omega

lemma readStr_encoded {data : Bytes} {pos : Nat} {s t : Bytes}
    (h : data.drop pos = encodeBytesStr s ++ t) (hlen : s.length < 2 ^ 64)
    (hutf : validUtf8 s = true) :
    readStr data pos = (.ok s, pos + (encodeBytesStr s).length) := by
  unfold readStr
  rw [readBytes_encoded h hlen]
  simp [hutf]

lemma readInteger_encoded {data : Bytes} {pos : Nat} {i : Int} {t : Bytes}
    (h : data.drop pos = 105 :: (intDecimal i ++ 101 :: t))
    (h1 : -(2 ^ 63) ≤ i) (h2 : i < 2 ^ 63) :
    readInteger parseI64 data pos = (.ok i, pos + 1 + (intDecimal i).length + 1) := by
  unfold readInteger
  rw [expectB_cons_eq h]
  dsimp only
  have hrest : data.drop (pos + 1) = intDecimal i ++ 101 :: t := by
    have := drop_shift (show data.drop pos = [105] ++ (intDecimal i ++ 101 :: t) by
      simpa using h)
    simpa using this
  rw [readNumber_intDecimal hrest isNumber_101 h1 h2]
  dsimp only
  have he : data.drop (pos + 1 + (intDecimal i).length) = 101 :: t := drop_shift hrest
  rw [expectB_cons_eq he]

/-! The byte-lexicographic order. -/

lemma bytesLt_irrefl (a : Bytes) : bytesLt a a = false := by
  induction a with
  | nil => rfl
  | cons x xs ih => simp [bytesLt, ih]

lemma bytesLt_asymm : ∀ {a b : Bytes}, bytesLt a b = true → bytesLt b a = false
  | [], [], h => by simp [bytesLt] at h
  | [], _ :: _, _ => rfl
  | _ :: _, [], h => by simp [bytesLt] at h
  | x :: xs, y :: ys, h => by
    unfold bytesLt at h ⊢
    split_ifs at h ⊢ with h1 h2 h3
    all_goals first
      | rfl
      | omega
      | (exact absurd h rfl)
      | (exact bytesLt_asymm h)

lemma bytesLe_false_of_lt {a b : Bytes} (h : bytesLt a b = true) :
    bytesLe b a = false := by
  unfold bytesLe
  rw [bytesLt_asymm h]
  simp
  intro hc
  subst hc
  rw [bytesLt_irrefl] at h
  exact Bool.noConfusion h

lemma btreeInsert_append {acc : List (Bytes × Value)} {k : Bytes} {v : Value}
    (h : ∀ k0 ∈ acc.map Prod.fst, bytesLt k0 k = true) :
    btreeInsert acc k v = acc ++ [(k, v)] := by
  induction acc with
  | nil => rfl
  | cons e rest ih =>
    obtain ⟨k0, v0⟩ := e
    have hk0 : bytesLt k0 k = true := h k0 (by simp)
    unfold btreeInsert
    rw [if_neg, if_neg]
    · rw [ih (fun k1 hk1 => h k1 (by simp [hk1]))]
      simp
    · intro hc
      subst hc
      rw [bytesLt_irrefl] at hk0
      exact Bool.noConfusion hk0
    · rw [bytesLt_asymm hk0]
      simp

/-! Shape facts about encoded values. -/

lemma encodeBytesStr_head (s : Bytes) :
    ∃ c rest, encodeBytesStr s = c :: rest ∧ 48 ≤ c ∧ c ≤ 57 := by
  obtain ⟨c, rest, hrep, h1, h2⟩ := natDecimal_head_digit s.length
  exact ⟨c, rest ++ 58 :: s, by simp [encodeBytesStr, hrep], h1, h2⟩

lemma encodeValue_head (v : Value) :
    ∃ c rest, encodeValue v = c :: rest ∧
      (c = 100 ∨ c = 105 ∨ c = 108 ∨ (48 ≤ c ∧ c ≤ 57)) := by
  cases v with
  | integer i => exact ⟨105, _, rfl, by omega⟩
  | bytes b =>
    obtain ⟨c, rest, hrep, h1, h2⟩ := encodeBytesStr_head b
    exact ⟨c, rest, hrep, by omega⟩
  | str s =>
    obtain ⟨c, rest, hrep, h1, h2⟩ := encodeBytesStr_head s
    exact ⟨c, rest, hrep, by omega⟩
  | list l => exact ⟨108, _, rfl, by omega⟩
  | dict d => exact ⟨100, _, rfl, by omega⟩

lemma encodeValue_length_pos (v : Value) : 0 < (encodeValue v).length := by
  obtain ⟨c, rest, hrep, _⟩ := encodeValue_head v
  rw [hrep]
  simp

lemma encodeBytesStr_length_pos (s : Bytes) : 0 < (encodeBytesStr s).length := by
  obtain ⟨c, rest, hrep, _⟩ := encodeBytesStr_head s
  rw [hrep]
  simp

mutual
/-- Whether every Bytes node of a value holds content that fails UTF-8
validation (true for every value produced by decoding, which only falls back
to Bytes when UTF-8 validation fails). -/
def bytesRaw : Value → Bool
  | .integer _ => true
  | .bytes b => !validUtf8 b
  | .str _ => true
  | .list l => bytesRawList l
  | .dict d => bytesRawEntries d

def bytesRawList : List Value → Bool
  | [] => true
  | v :: vs => bytesRaw v && bytesRawList vs

def bytesRawEntries : List (Bytes × Value) → Bool
  | [] => true
  | (_, v) :: rest => bytesRaw v && bytesRawEntries rest
end

mutual
/-- Parsing an encoded well-formed value out of the middle of a buffer
succeeds and consumes exactly the encoding. -/
theorem rtValue (v : Value) {data : Bytes} {pos f : Nat} (tail : Bytes)
    (hwf : wfValue v = true) (hraw : bytesRaw v = true)
    (hf : (encodeValue v).length ≤ f)
    (h : data.drop pos = encodeValue v ++ tail) :
    decodeValueF data f pos = (.ok v, pos + (encodeValue v).length) := by
  obtain ⟨g, rfl⟩ : ∃ g, f = g + 1 := by
    have := encodeValue_length_pos v
    exact ⟨f - 1, by omega⟩
  cases v with
  | integer i =>
    simp only [wfValue, decide_eq_true_eq] at hwf
    have hcons : data.drop pos = 105 :: (intDecimal i ++ 101 :: tail) := by
      simpa [encodeValue] using h
    simp only [decodeValueF]
    rw [peekByte_cons hcons]
    dsimp only
    rw [if_neg (show ¬(105 : Nat) = 100 by omega), if_pos rfl]
    rw [readInteger_encoded hcons hwf.1 hwf.2]
    dsimp only
    congr 1
    simp [encodeValue]
    omega
  | bytes b =>
    simp only [wfValue, decide_eq_true_eq] at hwf
    have hub : validUtf8 b = false := by
      simpa [bytesRaw] using hraw
    obtain ⟨c, rest, hrep, hc1, hc2⟩ := encodeBytesStr_head b
    have henc : data.drop pos = encodeBytesStr b ++ tail := by
      simpa [encodeValue] using h
    have hcons : data.drop pos = c :: (rest ++ tail) := by
      rw [henc, hrep]
      simp
    simp only [decodeValueF]
    rw [peekByte_cons hcons]
    dsimp only
    rw [if_neg (by omega : ¬c = 100), if_neg (by omega : ¬c = 105),
      if_neg (by omega : ¬c = 108), if_pos (show 48 ≤ c ∧ c ≤ 57 by omega)]
    rw [readBytes_encoded henc hwf]
    dsimp only
    simp [hub, encodeValue]
  | str s =>
    simp only [wfValue, Bool.and_eq_true, decide_eq_true_eq] at hwf
    obtain ⟨c, rest, hrep, hc1, hc2⟩ := encodeBytesStr_head s
    have henc : data.drop pos = encodeBytesStr s ++ tail := by
      simpa [encodeValue] using h
    have hcons : data.drop pos = c :: (rest ++ tail) := by
      rw [henc, hrep]
      simp
    simp only [decodeValueF]
    rw [peekByte_cons hcons]
    dsimp only
    rw [if_neg (by omega : ¬c = 100), if_neg (by omega : ¬c = 105),
      if_neg (by omega : ¬c = 108), if_pos (show 48 ≤ c ∧ c ≤ 57 by omega)]
    rw [readBytes_encoded henc hwf.2]
    dsimp only
    simp [hwf.1, encodeValue]
  | list l =>
    have hwl : wfList l = true := by simpa [wfValue] using hwf
    have hrl : bytesRawList l = true := by simpa [bytesRaw] using hraw
    have hcons : data.drop pos = 108 :: (encodeList l ++ 101 :: tail) := by
      simpa [encodeValue] using h
    simp only [decodeValueF]
    rw [peekByte_cons hcons]
    dsimp only
    rw [if_neg (show ¬(108 : Nat) = 100 by omega),
      if_neg (show ¬(108 : Nat) = 105 by omega), if_pos rfl]
    rw [expectB_cons_eq hcons]
    dsimp only
    have hdrop : data.drop (pos + 1) = encodeList l ++ 101 :: tail := by
      have := drop_shift (show data.drop pos
        = [108] ++ (encodeList l ++ 101 :: tail) by simpa using hcons)
      simpa using this
    have hlen : (encodeValue (.list l)).length = (encodeList l).length + 2 := by
      simp [encodeValue]
    rw [rtList l [] tail hwl hrl (by omega) hdrop]
    dsimp only
    rw [List.nil_append]
    congr 1
    omega
  | dict d =>
    simp only [wfValue, Bool.and_eq_true, decide_eq_true_eq] at hwf
    have hrd : bytesRawEntries d = true := by simpa [bytesRaw] using hraw
    have hcons : data.drop pos = 100 :: (encodeDict d ++ 101 :: tail) := by
      simpa [encodeValue] using h
    simp only [decodeValueF]
    rw [peekByte_cons hcons]
    dsimp only
    rw [if_pos rfl]
    rw [expectB_cons_eq hcons]
    dsimp only
    have hdrop : data.drop (pos + 1) = encodeDict d ++ 101 :: tail := by
      have := drop_shift (show data.drop pos
        = [100] ++ (encodeDict d ++ 101 :: tail) by simpa using hcons)
      simpa using this
    have hlen : (encodeValue (.dict d)).length = (encodeDict d).length + 2 := by
      simp [encodeValue]
    have hsort : keysSorted (d.map Prod.fst) := by
      simpa [decide_eq_true_eq] using hwf.2
    rw [rtEntries d [] tail hwf.1 hsort hrd (by simp) (by omega) hdrop]
    dsimp only
    rw [List.nil_append]
    congr 1
    omega

/-- Parsing the encoded elements of a list out of the middle of a buffer,
as the read_list loop does, appends them to the accumulated elements and
consumes the encodings and the closing e. -/
theorem rtList (l : List Value) (acc : List Value) {data : Bytes} {pos f : Nat}
    (tail : Bytes) (hwf : wfList l = true) (hraw : bytesRawList l = true)
    (hf : (encodeList l).length + 1 ≤ f)
    (h : data.drop pos = encodeList l ++ 101 :: tail) :
    listLoopF data f acc pos = (.ok (acc ++ l), pos + (encodeList l).length + 1) := by
  obtain ⟨g, rfl⟩ : ∃ g, f = g + 1 := ⟨f - 1, by omega⟩
  cases l with
  | nil =>
    have hcons : data.drop pos = 101 :: tail := by simpa [encodeList] using h
    simp only [listLoopF]
    rw [peekByte_cons hcons]
    dsimp only
    rw [if_pos rfl, expectB_cons_eq hcons]
    simp [encodeList]
  | cons v vs =>
    obtain ⟨hw1, hw2⟩ : wfValue v = true ∧ wfList vs = true := by
      simpa [wfList, Bool.and_eq_true] using hwf
    obtain ⟨hr1, hr2⟩ : bytesRaw v = true ∧ bytesRawList vs = true := by
      simpa [bytesRawList, Bool.and_eq_true] using hraw
    obtain ⟨c, rest, hrep, hc⟩ := encodeValue_head v
    have hv : data.drop pos = encodeValue v ++ (encodeList vs ++ 101 :: tail) := by
      simpa [encodeList, List.append_assoc] using h
    have hcons : data.drop pos = c :: (rest ++ (encodeList vs ++ 101 :: tail)) := by
      rw [hv, hrep]
      simp
    have hlen : (encodeList (v :: vs)).length
        = (encodeValue v).length + (encodeList vs).length := by
      simp [encodeList]
    have hvpos := encodeValue_length_pos v
    simp only [listLoopF]
    rw [peekByte_cons hcons]
    dsimp only
    rw [if_neg (show ¬c = 101 by rcases hc with h1 | h1 | h1 | ⟨h1, h2⟩ <;> omega)]
    rw [rtValue v (encodeList vs ++ 101 :: tail) hw1 hr1 (by omega) hv]
    dsimp only
    have hdrop2 : data.drop (pos + (encodeValue v).length)
        = encodeList vs ++ 101 :: tail := drop_shift hv
    rw [rtList vs (acc ++ [v]) tail hw2 hr2 (by omega) hdrop2]
    have hacc : acc ++ [v] ++ vs = acc ++ v :: vs := by simp
    rw [hacc]
    congr 1
    omega

/-- Parsing the encoded entries of a dictionary out of the middle of a
buffer, as the read_dict loop does (with the keys of the accumulated map all
below the keys still to come), appends them to the accumulated map and
consumes the encodings and the closing e. -/
theorem rtEntries (d : List (Bytes × Value)) (acc : List (Bytes × Value))
    {data : Bytes} {pos f : Nat} (tail : Bytes)
    (hwf : wfEntries d = true) (hsort : keysSorted (d.map Prod.fst))
    (hraw : bytesRawEntries d = true)
    (hcross : ∀ k0 ∈ acc.map Prod.fst, ∀ k1 ∈ d.map Prod.fst, bytesLt k0 k1 = true)
    (hf : (encodeDict d).length + 1 ≤ f)
    (h : data.drop pos = encodeDict d ++ 101 :: tail) :
    dictLoopF data f acc pos = (.ok (acc ++ d), pos + (encodeDict d).length + 1) := by
  obtain ⟨g, rfl⟩ : ∃ g, f = g + 1 := ⟨f - 1, by omega⟩
  cases d with
  | nil =>
    have hcons : data.drop pos = 101 :: tail := by simpa [encodeDict] using h
    simp only [dictLoopF]
    rw [peekByte_cons hcons]
    dsimp only
    rw [if_pos rfl, expectB_cons_eq hcons]
    simp [encodeDict]
  | cons e rest =>
    obtain ⟨k, v⟩ := e
    obtain ⟨⟨⟨hk1, hk2⟩, hw1⟩, hw2⟩ : ((validUtf8 k = true ∧ k.length < 2 ^ 64)
        ∧ wfValue v = true) ∧ wfEntries rest = true := by
      simpa [wfEntries, Bool.and_eq_true, decide_eq_true_eq, and_assoc] using hwf
    obtain ⟨hr1, hr2⟩ : bytesRaw v = true ∧ bytesRawEntries rest = true := by
      simpa [bytesRawEntries, Bool.and_eq_true] using hraw
    have hsp : List.Pairwise (fun a b => bytesLt a b = true) (k :: rest.map Prod.fst) := by
      simpa [keysSorted] using hsort
    obtain ⟨hhead, htail0⟩ := List.pairwise_cons.mp hsp
    have htail : keysSorted (rest.map Prod.fst) := htail0
    obtain ⟨c, crest, hrep, hc1, hc2⟩ := encodeBytesStr_head k
    have hv : data.drop pos = encodeBytesStr k
        ++ (encodeValue v ++ (encodeDict rest ++ 101 :: tail)) := by
      simpa [encodeDict, List.append_assoc] using h
    have hcons : data.drop pos
        = c :: (crest ++ (encodeValue v ++ (encodeDict rest ++ 101 :: tail))) := by
      rw [hv, hrep]
      simp
    have hklen := encodeBytesStr_length_pos k
    have hvpos := encodeValue_length_pos v
    have hlen : (encodeDict ((k, v) :: rest)).length
        = (encodeBytesStr k).length + (encodeValue v).length
          + (encodeDict rest).length := by
      simp [encodeDict]
      omega
    simp only [dictLoopF]
    rw [peekByte_cons hcons]
    dsimp only
    rw [if_neg (show ¬c = 101 by omega)]
    rw [readStr_encoded hv hk2 hk1]
    dsimp only
    have hcheck : (match (acc.map Prod.fst).getLast? with
        | some lk => bytesLe k lk
        | none => false) = false := by
      cases hl : (acc.map Prod.fst).getLast? with
      | none => rfl
      | some lk =>
        have hmem : lk ∈ acc.map Prod.fst := List.mem_of_mem_getLast? hl
        have : bytesLt lk k = true := hcross lk hmem k (by simp)
        exact bytesLe_false_of_lt this
    have hcheck2 : ¬((match (acc.map Prod.fst).getLast? with
        | some lk => bytesLe k lk
        | none => false) = true) := by
      rw [hcheck]
      simp
    rw [if_neg hcheck2]
    have hdropv : data.drop (pos + (encodeBytesStr k).length)
        = encodeValue v ++ (encodeDict rest ++ 101 :: tail) := drop_shift hv
    rw [rtValue v (encodeDict rest ++ 101 :: tail) hw1 hr1 (by omega) hdropv]
    dsimp only
    have hins : btreeInsert acc k v = acc ++ [(k, v)] := by
      refine btreeInsert_append ?_
      intro k0 hk0
      exact hcross k0 hk0 k (by simp)
    rw [hins]
    have hdropr : data.drop (pos + (encodeBytesStr k).length + (encodeValue v).length)
        = encodeDict rest ++ 101 :: tail := drop_shift hdropv
    have hcross2 : ∀ k0 ∈ (acc ++ [(k, v)]).map Prod.fst,
        ∀ k1 ∈ rest.map Prod.fst, bytesLt k0 k1 = true := by
      intro q0 hq0 q1 hq1
      rw [List.map_append] at hq0
      rcases List.mem_append.mp hq0 with hq0 | hq0
      · exact hcross q0 hq0 q1 (by simp [hq1])
      · simp at hq0
        subst hq0
        exact hhead q1 hq1
    rw [rtEntries rest (acc ++ [(k, v)]) tail hw2 htail hr2 hcross2 (by omega) hdropr]
    have hacc : acc ++ [(k, v)] ++ rest = acc ++ (k, v) :: rest := by simp
    rw [hacc]
    congr 1
    omega
end

/-- C1 counterexample: the claim fails as stated.  Value::Bytes(b"foo") is
constructible from the Value model, but its encoding 3:foo decodes to
Value::String("foo") because the byte string is valid UTF-8, so
decode(encode(v)) differs from v. -/
theorem c1_bytes_utf8_counterexample :
    decodeV (encodeValue (Value.bytes [102, 111, 111]))
      ≠ .ok (Value.bytes [102, 111, 111]) := by
  have h : decodeV (encodeValue (Value.bytes [102, 111, 111]))
      = .ok (Value.str [102, 111, 111]) := rfl
  rw [h]
  simp

/-- C1 (amended): for every well-formed value (Integer within i64, String
and dict keys valid UTF-8, dict keys strictly ascending, lengths within
usize) in which every Bytes node holds content that is not valid UTF-8,
decoding the encoding yields the value back. -/
theorem c1_roundtrip (v : Value) (hwf : wfValue v = true)
    (hraw : bytesRaw v = true) :
    decodeV (encodeValue v) = .ok v := by
  have h1 : decodeValueF (encodeValue v) ((encodeValue v).length + 1) 0
      = (.ok v, 0 + (encodeValue v).length) :=
    rtValue v [] hwf hraw (by omega) (by simp)
  unfold decodeV
  rw [h1]
  dsimp only
  unfold finish remaining
  simp

/-- C1 witness: the round-trip theorem applied to a concrete value
exercising every constructor. -/
theorem c1_roundtrip_witness :
    (wfValue (Value.dict [([98], Value.integer (-5)),
        ([102, 111, 111], Value.list [Value.str [104, 105], Value.bytes [255]])]) = true
      ∧ bytesRaw (Value.dict [([98], Value.integer (-5)),
        ([102, 111, 111], Value.list [Value.str [104, 105], Value.bytes [255]])]) = true)
    ∧ decodeV (encodeValue (Value.dict [([98], Value.integer (-5)),
        ([102, 111, 111], Value.list [Value.str [104, 105], Value.bytes [255]])]))
      = .ok (Value.dict [([98], Value.integer (-5)),
        ([102, 111, 111], Value.list [Value.str [104, 105], Value.bytes [255]])]) :=
  ⟨⟨by rfl, by rfl⟩, c1_roundtrip _ (by rfl) (by rfl)⟩

/-- C10: skip_item does not enforce integer canonical form.  On ie, i01e and
i-0e (inputs whose integer bodies read_integer rejects with the
malformed-number kind), skip_item succeeds and leaves the cursor past the
closing e, because it only discards a maximal run of number characters
between i and e. -/
theorem c10_skip_item_lenient :
    (skipItemF [105, 101] 1 0 = (.ok (), 2)
      ∧ (readInteger parseI64 [105, 101] 0).1 = .error .invalidNumber)
    ∧ (skipItemF [105, 48, 49, 101] 1 0 = (.ok (), 4)
      ∧ (readInteger parseI64 [105, 48, 49, 101] 0).1 = .error .invalidNumber)
    ∧ (skipItemF [105, 45, 48, 101] 1 0 = (.ok (), 4)
      ∧ (readInteger parseI64 [105, 45, 48, 101] 0).1 = .error .invalidNumber) := by
  refine ⟨⟨rfl, rfl⟩, ⟨rfl, rfl⟩, ⟨rfl, rfl⟩⟩

/-- C6: Hash decoding digests exactly the sub-value's original serialized
range.  Whenever skip_item run at the start of mid consumes exactly mid, the
Hash decode over any surrounding buffer returns the digest of exactly mid
and leaves the cursor at the post-skip position, for every digest function. -/
theorem c6_hash_range (digest : Bytes → Bytes) (pre mid post : Bytes) (fuel : Nat)
    (hskip : skipItemF (pre ++ mid ++ post) fuel pre.length
      = (.ok (), pre.length + mid.length)) :
    hashDecode digest fuel (pre ++ mid ++ post) pre.length
      = (.ok (digest mid), pre.length + mid.length) := by
  unfold hashDecode
  rw [hskip]
  dsimp only
  have hdrop : (pre ++ mid ++ post).drop pre.length = mid ++ post := by
    rw [List.append_assoc, List.drop_left]
  have hlen : (pre ++ mid ++ post).length = pre.length + mid.length + post.length := by
    simp
    omega
  have hsub : pre.length + mid.length - pre.length = mid.length := by omega
  unfold peekBytes
  rw [hsub, if_neg (by omega)]
  rw [hdrop, List.take_left]

/-- C6 witness: hashing the dict spanning d3:foo3:bare inside a larger list
buffer digests exactly those 12 bytes (identity digest shown). -/
theorem c6_hash_range_witness :
    hashDecode (fun x => x) 20
        ([108] ++ [100, 51, 58, 102, 111, 111, 51, 58, 98, 97, 114, 101] ++ [101]) 1
      = (.ok [100, 51, 58, 102, 111, 111, 51, 58, 98, 97, 114, 101], 13) := by
  have h := c6_hash_range (fun x => x) [108]
    [100, 51, 58, 102, 111, 111, 51, 58, 98, 97, 114, 101] [101] 20 (by rfl)
  simpa using h

/-- C3: during read_dict, a key read while the map is nonempty that is not
strictly greater (byte-lexicographically) than the map's greatest key makes
the loop fail immediately with InvalidDict, before the key's value is even
decoded: the error position is the position just after the offending key. -/
theorem c3_dict_order (data : Bytes) (f : Nat) (acc : List (Bytes × Value))
    (pos b : Nat) (k lk : Bytes) (p : Nat)
    (hpeek : peekByte data pos = (.ok b, pos)) (hb : b ≠ 101)
    (hkey : readStr data pos = (.ok k, p))
    (hlast : (acc.map Prod.fst).getLast? = some lk)
    (hle : bytesLe k lk = true) :
    dictLoopF data (f + 1) acc pos = (.error .invalidDict, p) := by
  simp only [dictLoopF]
  rw [hpeek]
  dsimp only
  rw [if_neg hb, hkey]
  dsimp only
  rw [if_pos]
  rw [hlast]
  exact hle

/-- C3 witness: the loop state reached inside read_dict of
d3:fooi0e3:fooi0ee rejects the duplicate second key foo. -/
theorem c3_dict_order_witness :
    dictLoopF [100, 51, 58, 102, 111, 111, 105, 48, 101, 51, 58, 102, 111, 111,
        105, 48, 101, 101] 8 [([102, 111, 111], Value.integer 0)] 9
      = (.error .invalidDict, 14) := by
  exact c3_dict_order _ 7 _ 9 51 [102, 111, 111] [102, 111, 111] 14
    (by rfl) (by omega) (by rfl) (by rfl) (by rfl)

/-- C4: read_number (the routine serving read_integer) classifies the
maximal run of number characters at the cursor: an empty run, a multi-digit
run with a leading zero byte, or the exact run -0 fails with InvalidNumber;
any other run is handed to the target-width parser, whose success yields the
parsed value and whose failure (overflow or stray minus signs) again yields
InvalidNumber, the cursor resting just past the run in every case. -/
theorem c4_read_number (data : Bytes) (pos : Nat) (run : Bytes) (p : Nat)
    (hrun : readWhile isNumber data pos = (.ok run, p)) :
    ((run = [] ∨ (1 < run.length ∧ run.head? = some 48) ∨ run = [45, 48]) →
      readNumber parseI64 data pos = (.error .invalidNumber, p))
    ∧ (¬(run = [] ∨ (1 < run.length ∧ run.head? = some 48) ∨ run = [45, 48]) →
      (∀ n, parseI64 run = some n → readNumber parseI64 data pos = (.ok n, p))
      ∧ (parseI64 run = none →
        readNumber parseI64 data pos = (.error .invalidNumber, p))) := by
  refine ⟨?_, ?_⟩
  · intro hbad
    unfold readNumber
    rw [hrun]
    dsimp only
    rw [if_pos hbad]
  · intro hgood
    refine ⟨?_, ?_⟩
    · intro n hn
      unfold readNumber
      rw [hrun]
      dsimp only
      rw [if_neg hgood, hn]
    · intro hn
      unfold readNumber
      rw [hrun]
      dsimp only
      rw [if_neg hgood, hn]

/-- C4 witness: the classification applied to the runs of i-0e (rejected
check), i7e (parsed) and i--4e (parse failure). -/
theorem c4_read_number_witness :
    readNumber parseI64 [45, 48, 101] 0 = (.error .invalidNumber, 2)
    ∧ readNumber parseI64 [55, 101] 0 = (.ok 7, 1)
    ∧ readNumber parseI64 [45, 45, 52, 101] 0 = (.error .invalidNumber, 3) := by
  refine ⟨?_, ?_, ?_⟩
  · exact (c4_read_number [45, 48, 101] 0 [45, 48] 2 (by rfl)).1 (by simp)
  · exact ((c4_read_number [55, 101] 0 [55] 1 (by rfl)).2 (by simp)).1 7 (by rfl)
  · exact ((c4_read_number [45, 45, 52, 101] 0 [45, 45, 52] 3 (by rfl)).2
      (by simp)).2 (by rfl)

/-- C9: untyped Value decoding dispatches on the peeked lead byte alone:
d yields a Dict, i an Integer, l a List; an ASCII digit reads a byte string
and yields String on successful UTF-8 validation and Bytes otherwise; any
other lead byte fails with InvalidByte without moving the cursor. -/
theorem c9_value_dispatch (data : Bytes) (f pos b : Nat)
    (hpeek : peekByte data pos = (.ok b, pos)) :
    (b = 100 → ∀ v p, decodeValueF data (f + 1) pos = (.ok v, p) →
      ∃ d, v = .dict d)
    ∧ (b = 105 → ∀ v p, decodeValueF data (f + 1) pos = (.ok v, p) →
      ∃ n, v = .integer n)
    ∧ (b = 108 → ∀ v p, decodeValueF data (f + 1) pos = (.ok v, p) →
      ∃ l, v = .list l)
    ∧ (48 ≤ b ∧ b ≤ 57 → decodeValueF data (f + 1) pos
        = (match readBytes data pos with
          | (.error e, p) => (.error e, p)
          | (.ok s, p) => (.ok (if validUtf8 s then .str s else .bytes s), p)))
    ∧ (¬(b = 100 ∨ b = 105 ∨ b = 108 ∨ (48 ≤ b ∧ b ≤ 57)) →
        decodeValueF data (f + 1) pos = (.error (.invalidByte b), pos)) := by
  refine ⟨?_, ?_, ?_, ?_, ?_⟩
  · rintro rfl v p heq
    simp only [decodeValueF] at heq
    rw [hpeek] at heq
    dsimp only at heq
    rw [if_pos rfl] at heq
    split at heq
    · exact absurd heq (by simp)
    · split at heq
      · exact absurd heq (by simp)
      · simp only [Prod.mk.injEq, Except.ok.injEq] at heq
        exact ⟨_, heq.1.symm⟩
  · rintro rfl v p heq
    simp only [decodeValueF] at heq
    rw [hpeek] at heq
    dsimp only at heq
    rw [if_neg (by omega : ¬(105 : Nat) = 100), if_pos rfl] at heq
    split at heq
    · exact absurd heq (by simp)
    · simp only [Prod.mk.injEq, Except.ok.injEq] at heq
      exact ⟨_, heq.1.symm⟩
  · rintro rfl v p heq
    simp only [decodeValueF] at heq
    rw [hpeek] at heq
    dsimp only at heq
    rw [if_neg (by omega : ¬(108 : Nat) = 100),
      if_neg (by omega : ¬(108 : Nat) = 105), if_pos rfl] at heq
    split at heq
    · exact absurd heq (by simp)
    · split at heq
      · exact absurd heq (by simp)
      · simp only [Prod.mk.injEq, Except.ok.injEq] at heq
        exact ⟨_, heq.1.symm⟩
  · intro hd
    simp only [decodeValueF]
    rw [hpeek]
    dsimp only
    rw [if_neg (by omega : ¬b = 100), if_neg (by omega : ¬b = 105),
      if_neg (by omega : ¬b = 108), if_pos hd]
  · intro hother
    push_neg at hother
    simp only [decodeValueF]
    rw [hpeek]
    dsimp only
    rw [if_neg hother.1, if_neg hother.2.1, if_neg hother.2.2.1,
      if_neg (by have := hother.2.2.2; omega)]

/-- C9 witness: the dispatch characterization applied on concrete buffers
for each branch (dict, integer, list, digit with both UTF-8 outcomes, and an
invalid lead byte). -/
theorem c9_value_dispatch_witness :
    (∃ d, Value.dict [] = Value.dict d)
    ∧ (∃ n, Value.integer 7 = Value.integer n)
    ∧ (∃ l, Value.list [] = Value.list l)
    ∧ decodeValueF [49, 58, 170] 3 0
        = (match readBytes [49, 58, 170] 0 with
          | (.error e, p) => (.error e, p)
          | (.ok s, p) => (.ok (if validUtf8 s then .str s else .bytes s), p))
    ∧ decodeValueF [120] 3 0 = (.error (.invalidByte 120), 0) := by
  refine ⟨?_, ?_, ?_, ?_, ?_⟩
  · exact (c9_value_dispatch [100, 101] 2 0 100 (by rfl)).1 rfl (Value.dict []) 2 (by rfl)
  · exact (c9_value_dispatch [105, 55, 101] 2 0 105 (by rfl)).2.1 rfl
      (Value.integer 7) 3 (by rfl)
  · exact (c9_value_dispatch [108, 101] 2 0 108 (by rfl)).2.2.1 rfl (Value.list []) 2 (by rfl)
  · exact (c9_value_dispatch [49, 58, 170] 2 0 49 (by rfl)).2.2.2.1 (by omega)
  · exact (c9_value_dispatch [120] 2 0 120 (by rfl)).2.2.2.2 (by omega)

/-- C8: read_field restores the cursor to the start of the scan exactly on
the two missing-field exits (a scanned key byte-lexicographically past the
wanted name, or the closing e reached), and propagates a hard parse failure
(from reading a key or skipping a value) with the cursor wherever the
failure left it. -/
theorem c8_read_field (α : Type) (decT : Bytes → Nat → Res α) (data : Bytes)
    (name : Bytes) (f pos : Nat) :
    (∀ start q b key p1, peekByte data q = (.ok b, q) → b ≠ 101 →
      readStr data q = (.ok key, p1) → key ≠ name → bytesLt key name = false →
      readFieldLoop decT data start name (f + 1) q = (.error .missingField, start))
    ∧ (∀ start q, peekByte data q = (.ok 101, q) →
      readFieldLoop decT data start name (f + 1) q = (.error .missingField, start))
    ∧ readField decT (f + 1) name data pos = readFieldLoop decT data pos name (f + 1) pos
    ∧ (∀ start q b e p, peekByte data q = (.ok b, q) → b ≠ 101 →
      readStr data q = (.error e, p) →
      readFieldLoop decT data start name (f + 1) q = (.error e, p))
    ∧ (∀ start q b key p1 e p2, peekByte data q = (.ok b, q) → b ≠ 101 →
      readStr data q = (.ok key, p1) → key ≠ name → bytesLt key name = true →
      skipItemF data f p1 = (.error e, p2) →
      readFieldLoop decT data start name (f + 1) q = (.error e, p2)) := by
  refine ⟨?_, ?_, rfl, ?_, ?_⟩
  · intro start q b key p1 hpeek hb hkey hne hlt
    simp only [readFieldLoop]
    rw [hpeek]
    dsimp only
    rw [if_neg hb, hkey]
    dsimp only
    rw [if_neg hne, if_neg (by simp [hlt])]
  · intro start q hpeek
    simp only [readFieldLoop]
    rw [hpeek]
    dsimp only
    rw [if_pos rfl]
  · intro start q b e p hpeek hb hkey
    simp only [readFieldLoop]
    rw [hpeek]
    dsimp only
    rw [if_neg hb, hkey]
  · intro start q b key p1 e p2 hpeek hb hkey hne hlt hskip
    simp only [readFieldLoop]
    rw [hpeek]
    dsimp only
    rw [if_neg hb, hkey]
    dsimp only
    rw [if_neg hne, if_pos hlt, hskip]

/-- C8 witness: a scan over the key foo looking for the smaller name bar
restores the cursor to the scan start and fails MissingField; a truncated
key (3:f) propagates Eof with the cursor past the failure point; a skipped
value beginning with an invalid byte (x after key a, scanning for name b)
propagates InvalidByte without restoring. -/
theorem c8_read_field_witness :
    readFieldLoop (fun d p => decodeValueF d 5 p) [51, 58, 102, 111, 111, 105, 49, 101, 101]
        0 [98, 97, 114] 3 0 = (.error .missingField, 0)
    ∧ readFieldLoop (fun d p => decodeValueF d 5 p) [51, 58, 102] 0 [98, 97, 114] 3 0
      = (.error .eof, 2)
    ∧ readFieldLoop (fun d p => decodeValueF d 5 p) [49, 58, 97, 120] 0 [98] 2 0
      = (.error (.invalidByte 120), 3) := by
  refine ⟨?_, ?_, ?_⟩
  · exact (c8_read_field Value (fun d p => decodeValueF d 5 p)
        [51, 58, 102, 111, 111, 105, 49, 101, 101] [98, 97, 114] 2 0).1
      0 0 51 [102, 111, 111] 5 (by rfl) (by omega) (by rfl) (by simp) (by rfl)
  · exact (c8_read_field Value (fun d p => decodeValueF d 5 p)
        [51, 58, 102] [98, 97, 114] 2 0).2.2.2.1
      0 0 51 .eof 2 (by rfl) (by omega) (by rfl)
  · exact (c8_read_field Value (fun d p => decodeValueF d 5 p)
        [49, 58, 97, 120] [98] 1 0).2.2.2.2
      0 0 49 [97] 3 (.invalidByte 120) 3 (by rfl) (by omega) (by rfl) (by simp) (by rfl)
        (by rfl)

/-! Position bounds: every reader leaves the cursor within the buffer. -/

lemma peekByte_pos (data : Bytes) (pos : Nat) : (peekByte data pos).2 = pos := by
  unfold peekByte
  split <;> rfl

lemma peekBytes_pos (data : Bytes) (n pos : Nat) : (peekBytes data n pos).2 = pos := by
  unfold peekBytes
  split <;> rfl

lemma readBuf_posLe {data : Bytes} {pos : Nat} (n : Nat) (h : pos ≤ data.length) :
    (readBuf data n pos).2 ≤ data.length := by
  unfold readBuf
  split
  · rename_i hle
    simp only
    omega
  · simp only
    omega

lemma readByte_posLe {data : Bytes} {pos : Nat} (h : pos ≤ data.length) :
    (readByte data pos).2 ≤ data.length := by
  unfold readByte
  have h1 := readBuf_posLe 1 h
  rcases hres : readBuf data 1 pos with ⟨r | r, q⟩ <;> rw [hres] at h1 <;> exact h1

lemma expectB_posLe {data : Bytes} {pos : Nat} (c : Nat) (h : pos ≤ data.length) :
    (expectB data c pos).2 ≤ data.length := by
  unfold expectB
  have h1 := readByte_posLe h
  rcases hres : readByte data pos with ⟨r | r, q⟩ <;> rw [hres] at h1
  · exact h1
  · dsimp only
    split <;> exact h1

lemma skip_posLe {data : Bytes} {pos : Nat} (n : Nat) (h : pos ≤ data.length) :
    (skip data n pos).2 ≤ data.length := by
  unfold skip
  split <;> simp <;> omega

lemma readWhileAux_count (p : Nat → Bool) (l : Bytes) :
    (readWhileAux p l).2 ≤ l.length := by
  induction l with
  | nil => simp [readWhileAux]
  | cons b rest ih =>
    unfold readWhileAux
    split
    · rcases hres : readWhileAux p rest with ⟨r | r, c⟩ <;> rw [hres] at ih <;>
        simp <;> omega
    · simp

lemma readWhile_posLe {data : Bytes} {pos : Nat} (p : Nat → Bool)
    (h : pos ≤ data.length) : (readWhile p data pos).2 ≤ data.length := by
  unfold readWhile
  have h1 := readWhileAux_count p (data.drop pos)
  have h2 : (data.drop pos).length = data.length - pos := by simp
  simp only
  omega

lemma skipWhile_posLe {data : Bytes} {pos : Nat} (p : Nat → Bool)
    (h : pos ≤ data.length) : (skipWhile p data pos).2 ≤ data.length := by
  unfold skipWhile
  have h1 := readWhile_posLe p h
  rcases hres : readWhile p data pos with ⟨r | r, q⟩ <;> rw [hres] at h1 <;> exact h1

lemma readNumber_posLe {α : Type} {data : Bytes} {pos : Nat}
    (parse : Bytes → Option α) (h : pos ≤ data.length) :
    (readNumber parse data pos).2 ≤ data.length := by
  unfold readNumber
  have h1 := readWhile_posLe isNumber h
  rcases hres : readWhile isNumber data pos with ⟨r | r, q⟩ <;> rw [hres] at h1
  · exact h1
  · dsimp only
    split
    · exact h1
    · split <;> exact h1

lemma readBytes_posLe {data : Bytes} {pos : Nat} (h : pos ≤ data.length) :
    (readBytes data pos).2 ≤ data.length := by
  unfold readBytes
  have h1 := readNumber_posLe parseUsize h
  rcases hres : readNumber parseUsize data pos with ⟨r | n, q⟩ <;> rw [hres] at h1
  · exact h1
  · dsimp only
    dsimp only at h1
    have h2 := expectB_posLe 58 h1
    rcases hres2 : expectB data 58 q with ⟨r2 | r2, q2⟩ <;> rw [hres2] at h2
    · exact h2
    · dsimp only
      dsimp only at h2
      split
      · exact h2
      · exact readBuf_posLe n h2

lemma readStr_posLe {data : Bytes} {pos : Nat} (h : pos ≤ data.length) :
    (readStr data pos).2 ≤ data.length := by
  unfold readStr
  have h1 := readBytes_posLe h
  rcases hres : readBytes data pos with ⟨r | r, q⟩ <;> rw [hres] at h1
  · exact h1
  · dsimp only
    split <;> exact h1

lemma readInteger_posLe {α : Type} {data : Bytes} {pos : Nat}
    (parse : Bytes → Option α) (h : pos ≤ data.length) :
    (readInteger parse data pos).2 ≤ data.length := by
  unfold readInteger
  have h1 := expectB_posLe 105 h
  rcases hres : expectB data 105 pos with ⟨r | r, q⟩ <;> rw [hres] at h1
  · exact h1
  · dsimp only
    dsimp only at h1
    have h2 := readNumber_posLe parse h1
    rcases hres2 : readNumber parse data q with ⟨r2 | n, q2⟩ <;> rw [hres2] at h2
    · exact h2
    · dsimp only
      dsimp only at h2
      have h3 := expectB_posLe 101 h2
      rcases hres3 : expectB data 101 q2 with ⟨r3 | r3, q3⟩ <;> rw [hres3] at h3 <;>
        exact h3

mutual
theorem decodeValueF_posLe (f : Nat) (data : Bytes) (pos : Nat)
    (h : pos ≤ data.length) : (decodeValueF data f pos).2 ≤ data.length := by
  match f with
  | 0 => simpa using h
  | g + 1 =>
    simp only [decodeValueF]
    have hp : (peekByte data pos).2 = pos := peekByte_pos data pos
    rcases hpk : peekByte data pos with ⟨r | b, q⟩ <;> rw [hpk] at hp <;> dsimp only at hp
    · dsimp only
      omega
    · dsimp only
      split
      · have h1 := expectB_posLe 100 h
        rcases hres : expectB data 100 pos with ⟨r2 | r2, q2⟩ <;> rw [hres] at h1
        · exact h1
        · dsimp only
          dsimp only at h1
          have h2 := dictLoopF_posLe g data [] q2 h1
          rcases hres2 : dictLoopF data g [] q2 with ⟨r3 | r3, q3⟩ <;> rw [hres2] at h2 <;>
            exact h2
      · split
        · have h1 := readInteger_posLe parseI64 h
          rcases hres : readInteger parseI64 data pos with ⟨r2 | r2, q2⟩ <;>
            rw [hres] at h1 <;> exact h1
        · split
          · have h1 := expectB_posLe 108 h
            rcases hres : expectB data 108 pos with ⟨r2 | r2, q2⟩ <;> rw [hres] at h1
            · exact h1
            · dsimp only
              dsimp only at h1
              have h2 := listLoopF_posLe g data [] q2 h1
              rcases hres2 : listLoopF data g [] q2 with ⟨r3 | r3, q3⟩ <;>
                rw [hres2] at h2 <;> exact h2
          · split
            · have h1 := readBytes_posLe h
              rcases hres : readBytes data pos with ⟨r2 | r2, q2⟩ <;>
                rw [hres] at h1 <;> exact h1
            · exact h

theorem dictLoopF_posLe (f : Nat) (data : Bytes) (acc : List (Bytes × Value))
    (pos : Nat) (h : pos ≤ data.length) :
    (dictLoopF data f acc pos).2 ≤ data.length := by
  match f with
  | 0 => simpa using h
  | g + 1 =>
    simp only [dictLoopF]
    have hp : (peekByte data pos).2 = pos := peekByte_pos data pos
    rcases hpk : peekByte data pos with ⟨r | b, q⟩ <;> rw [hpk] at hp <;> dsimp only at hp
    · dsimp only
      omega
    · dsimp only
      split
      · have h1 := expectB_posLe 101 h
        rcases hres : expectB data 101 pos with ⟨r2 | r2, q2⟩ <;> rw [hres] at h1 <;>
          exact h1
      · have h1 := readStr_posLe h
        rcases hres : readStr data pos with ⟨r2 | k, q2⟩ <;> rw [hres] at h1
        · exact h1
        · dsimp only
          dsimp only at h1
          split
          · exact h1
          · have h2 := decodeValueF_posLe g data q2 h1
            rcases hres2 : decodeValueF data g q2 with ⟨r3 | v, q3⟩ <;> rw [hres2] at h2
            · exact h2
            · dsimp only at h2
              exact dictLoopF_posLe g data (btreeInsert acc k v) q3 h2

theorem listLoopF_posLe (f : Nat) (data : Bytes) (acc : List Value)
    (pos : Nat) (h : pos ≤ data.length) :
    (listLoopF data f acc pos).2 ≤ data.length := by
  match f with
  | 0 => simpa using h
  | g + 1 =>
    simp only [listLoopF]
    have hp : (peekByte data pos).2 = pos := peekByte_pos data pos
    rcases hpk : peekByte data pos with ⟨r | b, q⟩ <;> rw [hpk] at hp <;> dsimp only at hp
    · dsimp only
      omega
    · dsimp only
      split
      · have h1 := expectB_posLe 101 h
        rcases hres : expectB data 101 pos with ⟨r2 | r2, q2⟩ <;> rw [hres] at h1 <;>
          exact h1
      · have h1 := decodeValueF_posLe g data pos h
        rcases hres : decodeValueF data g pos with ⟨r2 | v, q2⟩ <;> rw [hres] at h1
        · exact h1
        · dsimp only at h1
          exact listLoopF_posLe g data (acc ++ [v]) q2 h1
end

mutual
theorem skipItemF_posLe (f : Nat) (data : Bytes) (pos : Nat)
    (h : pos ≤ data.length) : (skipItemF data f pos).2 ≤ data.length := by
  match f with
  | 0 => simpa using h
  | g + 1 =>
    simp only [skipItemF]
    have hp : (peekByte data pos).2 = pos := peekByte_pos data pos
    rcases hpk : peekByte data pos with ⟨r | b, q⟩ <;> rw [hpk] at hp <;> dsimp only at hp
    · dsimp only
      omega
    · dsimp only
      split
      · have h1 := readByte_posLe h
        rcases hres : readByte data pos with ⟨r2 | r2, q2⟩ <;> rw [hres] at h1
        · exact h1
        · dsimp only at h1
          exact skipPairsF_posLe g data q2 h1
      · split
        · have h1 := expectB_posLe 105 h
          rcases hres : expectB data 105 pos with ⟨r2 | r2, q2⟩ <;> rw [hres] at h1
          · exact h1
          · dsimp only
            dsimp only at h1
            have h2 := skipWhile_posLe isNumber h1
            rcases hres2 : skipWhile isNumber data q2 with ⟨r3 | r3, q3⟩ <;>
              rw [hres2] at h2
            · exact h2
            · dsimp only
              dsimp only at h2
              exact expectB_posLe 101 h2
        · split
          · have h1 := readByte_posLe h
            rcases hres : readByte data pos with ⟨r2 | r2, q2⟩ <;> rw [hres] at h1
            · exact h1
            · dsimp only at h1
              exact skipListF_posLe g data q2 h1
          · split
            · have h1 := readNumber_posLe parseUsize h
              rcases hres : readNumber parseUsize data pos with ⟨r2 | n, q2⟩ <;>
                rw [hres] at h1
              · exact h1
              · dsimp only
                dsimp only at h1
                have h2 := expectB_posLe 58 h1
                rcases hres2 : expectB data 58 q2 with ⟨r3 | r3, q3⟩ <;> rw [hres2] at h2
                · exact h2
                · dsimp only
                  dsimp only at h2
                  exact skip_posLe n h2
            · exact h

theorem skipPairsF_posLe (f : Nat) (data : Bytes) (pos : Nat)
    (h : pos ≤ data.length) : (skipPairsF data f pos).2 ≤ data.length := by
  match f with
  | 0 => simpa using h
  | g + 1 =>
    simp only [skipPairsF]
    have hp : (peekByte data pos).2 = pos := peekByte_pos data pos
    rcases hpk : peekByte data pos with ⟨r | b, q⟩ <;> rw [hpk] at hp <;> dsimp only at hp
    · dsimp only
      omega
    · dsimp only
      split
      · exact expectB_posLe 101 h
      · have h1 := skipItemF_posLe g data pos h
        rcases hres : skipItemF data g pos with ⟨r2 | r2, q2⟩ <;> rw [hres] at h1
        · exact h1
        · dsimp only
          dsimp only at h1
          have h2 := skipItemF_posLe g data q2 h1
          rcases hres2 : skipItemF data g q2 with ⟨r3 | r3, q3⟩ <;> rw [hres2] at h2
          · exact h2
          · dsimp only at h2
            exact skipPairsF_posLe g data q3 h2

theorem skipListF_posLe (f : Nat) (data : Bytes) (pos : Nat)
    (h : pos ≤ data.length) : (skipListF data f pos).2 ≤ data.length := by
  match f with
  | 0 => simpa using h
  | g + 1 =>
    simp only [skipListF]
    have hp : (peekByte data pos).2 = pos := peekByte_pos data pos
    rcases hpk : peekByte data pos with ⟨r | b, q⟩ <;> rw [hpk] at hp <;> dsimp only at hp
    · dsimp only
      omega
    · dsimp only
      split
      · exact expectB_posLe 101 h
      · have h1 := skipItemF_posLe g data pos h
        rcases hres : skipItemF data g pos with ⟨r2 | r2, q2⟩ <;> rw [hres] at h1
        · exact h1
        · dsimp only at h1
          exact skipListF_posLe g data q2 h1
end

lemma readFieldLoop_posLe {α : Type} (decT : Bytes → Nat → Res α)
    (data : Bytes) (name : Bytes) (f : Nat) :
    ∀ (start pos : Nat), start ≤ data.length → pos ≤ data.length →
      (∀ q, q ≤ data.length → (decT data q).2 ≤ data.length) →
      (readFieldLoop decT data start name f pos).2 ≤ data.length := by
  induction f with
  | zero =>
    intro start pos hs h hdec
    simpa using h
  | succ g ih =>
    intro start pos hs h hdec
    simp only [readFieldLoop]
    have hp : (peekByte data pos).2 = pos := peekByte_pos data pos
    rcases hpk : peekByte data pos with ⟨r | b, q⟩ <;> rw [hpk] at hp <;> dsimp only at hp
    · dsimp only
      omega
    · dsimp only
      split
      · exact hs
      · have h1 := readStr_posLe h
        rcases hres : readStr data pos with ⟨r2 | key, q2⟩ <;> rw [hres] at h1
        · exact h1
        · dsimp only
          dsimp only at h1
          split
          · exact hdec q2 h1
          · split
            · have h2 := skipItemF_posLe g data q2 h1
              rcases hres2 : skipItemF data g q2 with ⟨r3 | r3, q3⟩ <;> rw [hres2] at h2
              · exact h2
              · dsimp only at h2
                exact ih start q3 hs h2 hdec
            · exact hs

lemma hashDecode_posLe (digest : Bytes → Bytes) (fuel : Nat) {data : Bytes}
    {pos : Nat} (h : pos ≤ data.length) :
    (hashDecode digest fuel data pos).2 ≤ data.length := by
  unfold hashDecode
  have h1 := skipItemF_posLe fuel data pos h
  rcases hres : skipItemF data fuel pos with ⟨r | r, q⟩ <;> rw [hres] at h1
  · exact h1
  · dsimp only
    dsimp only at h1
    have h2 : (peekBytes data (q - pos) pos).2 = pos := peekBytes_pos data (q - pos) pos
    rcases hres2 : peekBytes data (q - pos) pos with ⟨r2 | r2, q2⟩ <;> rw [hres2] at h2 <;>
      dsimp only at h2
    · dsimp only
      omega
    · exact h1

/-- C2 counterexample: set_position is a Decoder operation (it is public and
performs no bounds check), and it moves the offset past the buffer length:
on the empty buffer it sets offset 5, violating offset within [0, length]. -/
theorem c2_set_position_counterexample :
    (setPosition [] 5 0).2 = 5 ∧ ¬((setPosition [] 5 0).2 ≤ ([] : Bytes).length) := by
  constructor
  · rfl
  · simp [setPosition]

/-- C2 (amended): apart from set_position (whose argument is not bounds
checked), every Decoder operation started at an offset within [0, buffer
length] leaves the offset within [0, buffer length] (on success and on
error alike), and the primitive reads fail with Eof rather than read past
the end of the buffer. -/
theorem c2_reads_stay_in_bounds (data : Bytes) (pos : Nat) (h : pos ≤ data.length) :
    (∀ n, (readBuf data n pos).2 ≤ data.length)
    ∧ (readByte data pos).2 ≤ data.length
    ∧ (peekByte data pos).2 ≤ data.length
    ∧ (∀ n, (peekBytes data n pos).2 ≤ data.length)
    ∧ (∀ c, (expectB data c pos).2 ≤ data.length)
    ∧ (∀ n, (skip data n pos).2 ≤ data.length)
    ∧ (∀ p, (readWhile p data pos).2 ≤ data.length)
    ∧ (∀ p, (skipWhile p data pos).2 ≤ data.length)
    ∧ (∀ (α : Type) (parse : Bytes → Option α),
        (readNumber parse data pos).2 ≤ data.length)
    ∧ (readBytes data pos).2 ≤ data.length
    ∧ (readStr data pos).2 ≤ data.length
    ∧ (∀ (α : Type) (parse : Bytes → Option α),
        (readInteger parse data pos).2 ≤ data.length)
    ∧ (∀ f, (skipItemF data f pos).2 ≤ data.length)
    ∧ (∀ f, (decodeValueF data f pos).2 ≤ data.length)
    ∧ (∀ f g name,
        (readField (fun d q => decodeValueF d g q) f name data pos).2 ≤ data.length)
    ∧ (∀ digest f, (hashDecode digest f data pos).2 ≤ data.length)
    ∧ (∀ n, data.length - pos < n → (readBuf data n pos).1 = .error .eof)
    ∧ (∀ n, data.length < pos + n → skip data n pos = (.error .eof, pos))
    ∧ (∀ n, data.length < pos + n → peekBytes data n pos = (.error .eof, pos))
    ∧ (data.length ≤ pos → (readByte data pos).1 = .error .eof) := by
  refine ⟨fun n => readBuf_posLe n h, readByte_posLe h, ?_, fun n => ?_,
    fun c => expectB_posLe c h, fun n => skip_posLe n h, fun p => readWhile_posLe p h,
    fun p => skipWhile_posLe p h, fun α parse => readNumber_posLe parse h,
    readBytes_posLe h, readStr_posLe h, fun α parse => readInteger_posLe parse h,
    fun f => skipItemF_posLe f data pos h, fun f => decodeValueF_posLe f data pos h,
    fun f g name => ?_, fun digest f => hashDecode_posLe digest f h,
    fun n hn => ?_, fun n hn => ?_, fun n hn => ?_, fun hp => ?_⟩
  · rw [peekByte_pos]
    exact h
  · rw [peekBytes_pos]
    exact h
  · exact readFieldLoop_posLe (fun d q => decodeValueF d g q) data name f pos pos h h
      (fun q hq => decodeValueF_posLe g data q hq)
  · unfold readBuf
    rw [if_neg (by omega)]
  · unfold skip
    rw [if_pos (by omega)]
  · unfold peekBytes
    rw [if_pos (by omega)]
  · have hdrop : data.drop pos = [] := List.drop_eq_nil_iff.mpr hp
    rw [readByte_nil hdrop]

/-- C2 witness: the bounds applied on a concrete buffer and offset. -/
theorem c2_reads_stay_in_bounds_witness :
    (readByte [105, 49, 101] 0).2 ≤ ([105, 49, 101] : Bytes).length :=
  (c2_reads_stay_in_bounds [105, 49, 101] 0 (by omega)).2.1

/-! Decodable::decode never reports ExtraneousData: that kind is produced
only by finish at the top-level entry point. -/

lemma readBuf_noExtra (data : Bytes) (n pos : Nat) :
    (readBuf data n pos).1 ≠ .error .extraneousData := by
  unfold readBuf
  split <;> simp

lemma readByte_noExtra (data : Bytes) (pos : Nat) :
    (readByte data pos).1 ≠ .error .extraneousData := by
  unfold readByte
  have h1 := readBuf_noExtra data 1 pos
  rcases hres : readBuf data 1 pos with ⟨r | r, q⟩ <;> rw [hres] at h1 <;> simpa using h1

lemma peekByte_noExtra (data : Bytes) (pos : Nat) :
    (peekByte data pos).1 ≠ .error .extraneousData := by
  unfold peekByte
  split <;> simp

lemma expectB_noExtra (data : Bytes) (c pos : Nat) :
    (expectB data c pos).1 ≠ .error .extraneousData := by
  unfold expectB
  have h1 := readByte_noExtra data pos
  rcases hres : readByte data pos with ⟨r | r, q⟩ <;> rw [hres] at h1
  · simpa using h1
  · dsimp only
    split <;> simp

lemma readWhile_noExtra (p : Nat → Bool) (data : Bytes) (pos : Nat) :
    (readWhile p data pos).1 ≠ .error .extraneousData := by
  unfold readWhile
  dsimp only
  have : ∀ l : Bytes, (readWhileAux p l).1 ≠ .error .extraneousData := by
    intro l
    induction l with
    | nil => simp [readWhileAux]
    | cons b rest ih =>
      unfold readWhileAux
      split
      · rcases hres : readWhileAux p rest with ⟨r | r, c⟩ <;> rw [hres] at ih <;>
          simpa using ih
      · simp
  exact this (data.drop pos)

lemma skipWhile_noExtra (p : Nat → Bool) (data : Bytes) (pos : Nat) :
    (skipWhile p data pos).1 ≠ .error .extraneousData := by
  unfold skipWhile
  have h1 := readWhile_noExtra p data pos
  rcases hres : readWhile p data pos with ⟨r | r, q⟩ <;> rw [hres] at h1 <;> simpa using h1

lemma skip_noExtra (data : Bytes) (n pos : Nat) :
    (skip data n pos).1 ≠ .error .extraneousData := by
  unfold skip
  split <;> simp

lemma readNumber_noExtra {α : Type} (parse : Bytes → Option α) (data : Bytes) (pos : Nat) :
    (readNumber parse data pos).1 ≠ .error .extraneousData := by
  unfold readNumber
  have h1 := readWhile_noExtra isNumber data pos
  rcases hres : readWhile isNumber data pos with ⟨r | r, q⟩ <;> rw [hres] at h1
  · simpa using h1
  · dsimp only
    split
    · simp
    · split <;> simp

lemma readBytes_noExtra (data : Bytes) (pos : Nat) :
    (readBytes data pos).1 ≠ .error .extraneousData := by
  unfold readBytes
  have h1 := readNumber_noExtra parseUsize data pos
  rcases hres : readNumber parseUsize data pos with ⟨r | n, q⟩ <;> rw [hres] at h1
  · simpa using h1
  · dsimp only
    have h2 := expectB_noExtra data 58 q
    rcases hres2 : expectB data 58 q with ⟨r2 | r2, q2⟩ <;> rw [hres2] at h2
    · simpa using h2
    · dsimp only
      split
      · simp
      · exact readBuf_noExtra data n q2

lemma readStr_noExtra (data : Bytes) (pos : Nat) :
    (readStr data pos).1 ≠ .error .extraneousData := by
  unfold readStr
  have h1 := readBytes_noExtra data pos
  rcases hres : readBytes data pos with ⟨r | r, q⟩ <;> rw [hres] at h1
  · simpa using h1
  · dsimp only
    split <;> simp

lemma readInteger_noExtra {α : Type} (parse : Bytes → Option α) (data : Bytes) (pos : Nat) :
    (readInteger parse data pos).1 ≠ .error .extraneousData := by
  unfold readInteger
  have h1 := expectB_noExtra data 105 pos
  rcases hres : expectB data 105 pos with ⟨r | r, q⟩ <;> rw [hres] at h1
  · simpa using h1
  · dsimp only
    have h2 := readNumber_noExtra parse data q
    rcases hres2 : readNumber parse data q with ⟨r2 | n, q2⟩ <;> rw [hres2] at h2
    · simpa using h2
    · dsimp only
      have h3 := expectB_noExtra data 101 q2
      rcases hres3 : expectB data 101 q2 with ⟨r3 | r3, q3⟩ <;> rw [hres3] at h3
      · simpa using h3
      · simp

mutual
theorem decodeValueF_noExtra (f : Nat) (data : Bytes) (pos : Nat) :
    (decodeValueF data f pos).1 ≠ .error .extraneousData := by
  match f with
  | 0 => simp [decodeValueF]
  | g + 1 =>
    simp only [decodeValueF]
    have hp := peekByte_noExtra data pos
    rcases hpk : peekByte data pos with ⟨r | b, q⟩ <;> rw [hpk] at hp
    · simpa using hp
    · dsimp only
      split
      · have h1 := expectB_noExtra data 100 pos
        rcases hres : expectB data 100 pos with ⟨r2 | r2, q2⟩ <;> rw [hres] at h1
        · simpa using h1
        · dsimp only
          have h2 := dictLoopF_noExtra g data [] q2
          rcases hres2 : dictLoopF data g [] q2 with ⟨r3 | r3, q3⟩ <;> rw [hres2] at h2 <;>
            simpa using h2
      · split
        · have h1 := readInteger_noExtra parseI64 data pos
          rcases hres : readInteger parseI64 data pos with ⟨r2 | r2, q2⟩ <;>
            rw [hres] at h1 <;> simpa using h1
        · split
          · have h1 := expectB_noExtra data 108 pos
            rcases hres : expectB data 108 pos with ⟨r2 | r2, q2⟩ <;> rw [hres] at h1
            · simpa using h1
            · dsimp only
              have h2 := listLoopF_noExtra g data [] q2
              rcases hres2 : listLoopF data g [] q2 with ⟨r3 | r3, q3⟩ <;>
                rw [hres2] at h2 <;> simpa using h2
          · split
            · have h1 := readBytes_noExtra data pos
              rcases hres : readBytes data pos with ⟨r2 | r2, q2⟩ <;>
                rw [hres] at h1 <;> simpa using h1
            · simp

theorem dictLoopF_noExtra (f : Nat) (data : Bytes) (acc : List (Bytes × Value))
    (pos : Nat) : (dictLoopF data f acc pos).1 ≠ .error .extraneousData := by
  match f with
  | 0 => simp [dictLoopF]
  | g + 1 =>
    simp only [dictLoopF]
    have hp := peekByte_noExtra data pos
    rcases hpk : peekByte data pos with ⟨r | b, q⟩ <;> rw [hpk] at hp
    · simpa using hp
    · dsimp only
      split
      · have h1 := expectB_noExtra data 101 pos
        rcases hres : expectB data 101 pos with ⟨r2 | r2, q2⟩ <;> rw [hres] at h1
        · simpa using h1
        · simp
      · have h1 := readStr_noExtra data pos
        rcases hres : readStr data pos with ⟨r2 | k, q2⟩ <;> rw [hres] at h1
        · simpa using h1
        · dsimp only
          split
          · simp
          · have h2 := decodeValueF_noExtra g data q2
            rcases hres2 : decodeValueF data g q2 with ⟨r3 | v, q3⟩ <;> rw [hres2] at h2
            · simpa using h2
            · dsimp only
              exact dictLoopF_noExtra g data (btreeInsert acc k v) q3

theorem listLoopF_noExtra (f : Nat) (data : Bytes) (acc : List Value)
    (pos : Nat) : (listLoopF data f acc pos).1 ≠ .error .extraneousData := by
  match f with
  | 0 => simp [listLoopF]
  | g + 1 =>
    simp only [listLoopF]
    have hp := peekByte_noExtra data pos
    rcases hpk : peekByte data pos with ⟨r | b, q⟩ <;> rw [hpk] at hp
    · simpa using hp
    · dsimp only
      split
      · have h1 := expectB_noExtra data 101 pos
        rcases hres : expectB data 101 pos with ⟨r2 | r2, q2⟩ <;> rw [hres] at h1
        · simpa using h1
        · simp
      · have h1 := decodeValueF_noExtra g data pos
        rcases hres : decodeValueF data g pos with ⟨r2 | v, q2⟩ <;> rw [hres] at h1
        · simpa using h1
        · dsimp only
          exact listLoopF_noExtra g data (acc ++ [v]) q2
end

/-- C7: the decode entry point (for the untyped Value target) fails with
ExtraneousData exactly when one complete value decodes successfully and
bytes remain after it: Decodable::decode itself never produces that kind,
and finish produces it exactly when the final cursor is short of the end. -/
theorem c7_extraneous_iff (data : Bytes) :
    decodeV data = .error .extraneousData ↔
      ∃ v p, decodeValueF data (data.length + 1) 0 = (.ok v, p)
        ∧ p < data.length := by
  unfold decodeV
  rcases hres : decodeValueF data (data.length + 1) 0 with ⟨r | v, p⟩
  · dsimp only
    constructor
    · intro hc
      exfalso
      have hno := decodeValueF_noExtra (data.length + 1) data 0
      rw [hres] at hno
      simp at hno
      have : r = DecodeError.extraneousData := by
        simpa using hc
      exact hno this
    · rintro ⟨v, p2, hv, _⟩
      exact absurd hv (by simp)
  · dsimp only
    unfold finish remaining
    by_cases hrem : data.length - p = 0
    · rw [if_pos hrem]
      dsimp only
      constructor
      · intro hc
        exact absurd hc (by simp)
      · rintro ⟨v2, p2, hv, hlt⟩
        exfalso
        have h2 : p = p2 := by
          have := congrArg Prod.snd hv
          simpa using this
        omega
    · rw [if_neg hrem]
      dsimp only
      constructor
      · intro _
        exact ⟨v, p, rfl, by omega⟩
      · intro _
        rfl

/-- C7 witness: i1ex decodes the value i1e and leaves the trailing x, so the
entry point reports ExtraneousData, and the equivalence exhibits the
successful inner decode with bytes remaining. -/
theorem c7_extraneous_iff_witness :
    decodeV [105, 49, 101, 120] = .error .extraneousData
    ∧ ∃ v p, decodeValueF [105, 49, 101, 120] ([105, 49, 101, 120].length + 1) 0
        = (.ok v, p) ∧ p < [105, 49, 101, 120].length :=
  ⟨rfl, (c7_extraneous_iff [105, 49, 101, 120]).mp rfl⟩

/-! Position monotonicity: every reader of the value grammar moves the
cursor forward (or leaves it in place), on success and on error alike. -/

lemma readBuf_posGe (data : Bytes) (n pos : Nat) : pos ≤ (readBuf data n pos).2 := by
  unfold readBuf
  split <;> simp

lemma readByte_posGe (data : Bytes) (pos : Nat) : pos ≤ (readByte data pos).2 := by
  unfold readByte
  have h1 := readBuf_posGe data 1 pos
  rcases hres : readBuf data 1 pos with ⟨r | r, q⟩ <;> rw [hres] at h1 <;> exact h1

lemma expectB_posGe (data : Bytes) (c pos : Nat) : pos ≤ (expectB data c pos).2 := by
  unfold expectB
  have h1 := readByte_posGe data pos
  rcases hres : readByte data pos with ⟨r | r, q⟩ <;> rw [hres] at h1
  · exact h1
  · dsimp only
    split <;> exact h1

lemma skip_posGe (data : Bytes) (n pos : Nat) : pos ≤ (skip data n pos).2 := by
  unfold skip
  split <;> simp

lemma readWhile_posGe (p : Nat → Bool) (data : Bytes) (pos : Nat) :
    pos ≤ (readWhile p data pos).2 := by
  unfold readWhile
  simp

lemma skipWhile_posGe (p : Nat → Bool) (data : Bytes) (pos : Nat) :
    pos ≤ (skipWhile p data pos).2 := by
  unfold skipWhile
  have h1 := readWhile_posGe p data pos
  rcases hres : readWhile p data pos with ⟨r | r, q⟩ <;> rw [hres] at h1 <;> exact h1

lemma readNumber_posGe {α : Type} (parse : Bytes → Option α) (data : Bytes) (pos : Nat) :
    pos ≤ (readNumber parse data pos).2 := by
  unfold readNumber
  have h1 := readWhile_posGe isNumber data pos
  rcases hres : readWhile isNumber data pos with ⟨r | r, q⟩ <;> rw [hres] at h1
  · exact h1
  · dsimp only
    split
    · exact h1
    · split <;> exact h1

lemma readBytes_posGe (data : Bytes) (pos : Nat) : pos ≤ (readBytes data pos).2 := by
  unfold readBytes
  have h1 := readNumber_posGe parseUsize data pos
  rcases hres : readNumber parseUsize data pos with ⟨r | n, q⟩ <;> rw [hres] at h1
  · exact h1
  · dsimp only
    dsimp only at h1
    have h2 := expectB_posGe data 58 q
    rcases hres2 : expectB data 58 q with ⟨r2 | r2, q2⟩ <;> rw [hres2] at h2
    · dsimp only
      dsimp only at h2
      omega
    · dsimp only
      dsimp only at h2
      split
      · omega
      · have h3 := readBuf_posGe data n q2
        rcases hres3 : readBuf data n q2 with ⟨r3 | r3, q3⟩ <;> rw [hres3] at h3 <;>
          (dsimp only at h3; omega)

lemma readStr_posGe (data : Bytes) (pos : Nat) : pos ≤ (readStr data pos).2 := by
  unfold readStr
  have h1 := readBytes_posGe data pos
  rcases hres : readBytes data pos with ⟨r | r, q⟩ <;> rw [hres] at h1
  · exact h1
  · dsimp only
    split <;> exact h1

lemma readInteger_posGe {α : Type} (parse : Bytes → Option α) (data : Bytes) (pos : Nat) :
    pos ≤ (readInteger parse data pos).2 := by
  unfold readInteger
  have h1 := expectB_posGe data 105 pos
  rcases hres : expectB data 105 pos with ⟨r | r, q⟩ <;> rw [hres] at h1
  · exact h1
  · dsimp only
    dsimp only at h1
    have h2 := readNumber_posGe parse data q
    rcases hres2 : readNumber parse data q with ⟨r2 | n, q2⟩ <;> rw [hres2] at h2
    · dsimp only
      dsimp only at h2
      omega
    · dsimp only
      dsimp only at h2
      have h3 := expectB_posGe data 101 q2
      rcases hres3 : expectB data 101 q2 with ⟨r3 | r3, q3⟩ <;> rw [hres3] at h3 <;>
        (first | omega | (dsimp only; dsimp only at h3; omega))

mutual
theorem decodeValueF_posGe (f : Nat) (data : Bytes) (pos : Nat) :
    pos ≤ (decodeValueF data f pos).2 := by
  match f with
  | 0 => simp [decodeValueF]
  | g + 1 =>
    simp only [decodeValueF]
    have hp : (peekByte data pos).2 = pos := peekByte_pos data pos
    rcases hpk : peekByte data pos with ⟨r | b, q⟩ <;> rw [hpk] at hp <;> dsimp only at hp
    · dsimp only
      omega
    · dsimp only
      split
      · have h1 := expectB_posGe data 100 pos
        rcases hres : expectB data 100 pos with ⟨r2 | r2, q2⟩ <;> rw [hres] at h1
        · exact h1
        · dsimp only
          dsimp only at h1
          have h2 := dictLoopF_posGe g data [] q2
          rcases hres2 : dictLoopF data g [] q2 with ⟨r3 | r3, q3⟩ <;> rw [hres2] at h2 <;>
            (dsimp only at h2; dsimp only; omega)
      · split
        · have h1 := readInteger_posGe parseI64 data pos
          rcases hres : readInteger parseI64 data pos with ⟨r2 | r2, q2⟩ <;>
            rw [hres] at h1 <;> exact h1
        · split
          · have h1 := expectB_posGe data 108 pos
            rcases hres : expectB data 108 pos with ⟨r2 | r2, q2⟩ <;> rw [hres] at h1
            · exact h1
            · dsimp only
              dsimp only at h1
              have h2 := listLoopF_posGe g data [] q2
              rcases hres2 : listLoopF data g [] q2 with ⟨r3 | r3, q3⟩ <;> rw [hres2] at h2 <;>
                (dsimp only at h2; dsimp only; omega)
          · split
            · have h1 := readBytes_posGe data pos
              rcases hres : readBytes data pos with ⟨r2 | r2, q2⟩ <;>
                rw [hres] at h1 <;> exact h1
            · simp

theorem dictLoopF_posGe (f : Nat) (data : Bytes) (acc : List (Bytes × Value))
    (pos : Nat) : pos ≤ (dictLoopF data f acc pos).2 := by
  match f with
  | 0 => simp [dictLoopF]
  | g + 1 =>
    simp only [dictLoopF]
    have hp : (peekByte data pos).2 = pos := peekByte_pos data pos
    rcases hpk : peekByte data pos with ⟨r | b, q⟩ <;> rw [hpk] at hp <;> dsimp only at hp
    · dsimp only
      omega
    · dsimp only
      split
      · have h1 := expectB_posGe data 101 pos
        rcases hres : expectB data 101 pos with ⟨r2 | r2, q2⟩ <;> rw [hres] at h1 <;> exact h1
      · have h1 := readStr_posGe data pos
        rcases hres : readStr data pos with ⟨r2 | k, q2⟩ <;> rw [hres] at h1
        · exact h1
        · dsimp only
          dsimp only at h1
          split
          · dsimp only
            omega
          · have h2 := decodeValueF_posGe g data q2
            rcases hres2 : decodeValueF data g q2 with ⟨r3 | v, q3⟩ <;> rw [hres2] at h2
            · dsimp only
              dsimp only at h2
              omega
            · dsimp only
              dsimp only at h2
              have h3 := dictLoopF_posGe g data (btreeInsert acc k v) q3
              omega

theorem listLoopF_posGe (f : Nat) (data : Bytes) (acc : List Value)
    (pos : Nat) : pos ≤ (listLoopF data f acc pos).2 := by
  match f with
  | 0 => simp [listLoopF]
  | g + 1 =>
    simp only [listLoopF]
    have hp : (peekByte data pos).2 = pos := peekByte_pos data pos
    rcases hpk : peekByte data pos with ⟨r | b, q⟩ <;> rw [hpk] at hp <;> dsimp only at hp
    · dsimp only
      omega
    · dsimp only
      split
      · have h1 := expectB_posGe data 101 pos
        rcases hres : expectB data 101 pos with ⟨r2 | r2, q2⟩ <;> rw [hres] at h1 <;> exact h1
      · have h1 := decodeValueF_posGe g data pos
        rcases hres : decodeValueF data g pos with ⟨r2 | v, q2⟩ <;> rw [hres] at h1
        · exact h1
        · dsimp only
          dsimp only at h1
          have h2 := listLoopF_posGe g data (acc ++ [v]) q2
          omega
end

/-! Inversion of successful reads. -/

lemma readBuf_ok_inv {data : Bytes} {n pos : Nat} {l : Bytes} {q : Nat}
    (h : readBuf data n pos = (.ok l, q)) :
    q = pos + n ∧ l = (data.drop pos).take n ∧ n ≤ data.length - pos := by
  unfold readBuf at h
  split at h
  · rename_i hle
    have h1 := congrArg Prod.fst h
    have h2 := congrArg Prod.snd h
    simp at h1 h2
    exact ⟨h2.symm, h1.symm, hle⟩
  · exact absurd (congrArg Prod.fst h) (by simp)

lemma readByte_ok_inv {data : Bytes} {pos b q : Nat}
    (h : readByte data pos = (.ok b, q)) :
    q = pos + 1 ∧ data.drop pos = b :: (data.drop (pos + 1)) := by
  unfold readByte at h
  rcases hres : readBuf data 1 pos with ⟨r | l, q2⟩ <;> rw [hres] at h
  · exact absurd (congrArg Prod.fst h) (by simp)
  · obtain ⟨hq, hl, hle⟩ := readBuf_ok_inv hres
    dsimp only at h
    have h1 := congrArg Prod.fst h
    have h2 := congrArg Prod.snd h
    simp at h1 h2
    subst hq hl h2
    refine ⟨rfl, ?_⟩
    have hlen : 0 < (data.drop pos).length := by
      simp
      omega
    rcases hd : data.drop pos with _ | ⟨x, t⟩
    · rw [hd] at hlen
      simp at hlen
    · have ht : data.drop (pos + 1) = t := by
        have := @drop_shift data pos [x] t (by simpa using hd)
        simpa using this
      rw [hd] at h1
      simp at h1
      rw [ht, h1]

lemma expectB_ok_inv {data : Bytes} {c pos : Nat} {u : Unit} {q : Nat}
    (h : expectB data c pos = (.ok u, q)) :
    q = pos + 1 ∧ data.drop pos = c :: (data.drop (pos + 1)) := by
  unfold expectB at h
  rcases hres : readByte data pos with ⟨r | b, q2⟩ <;> rw [hres] at h
  · exact absurd (congrArg Prod.fst h) (by simp)
  · dsimp only at h
    split at h
    · rename_i hbc
      obtain ⟨hq, hd⟩ := readByte_ok_inv hres
      have h2 := congrArg Prod.snd h
      simp at h2
      subst hbc
      exact ⟨by omega, hd⟩
    · exact absurd (congrArg Prod.fst h) (by simp)

lemma readWhileAux_ok_inv {p : Nat → Bool} :
    ∀ {l run : Bytes} {c : Nat}, readWhileAux p l = (.ok run, c) →
      c = run.length ∧ (∀ x ∈ run, p x = true)
        ∧ ∃ b t, l = run ++ b :: t ∧ p b = false := by
  intro l
  induction l with
  | nil => intro run c h; exact absurd (congrArg Prod.fst h) (by simp [readWhileAux])
  | cons b rest ih =>
    intro run c h
    unfold readWhileAux at h
    split at h
    · rename_i hpb
      rcases hres : readWhileAux p rest with ⟨r | run2, c2⟩ <;> rw [hres] at h
      · exact absurd (congrArg Prod.fst h) (by simp)
      · obtain ⟨hc2, hall, b2, t2, hrep, hb2⟩ := ih hres
        dsimp only at h
        have h1 := congrArg Prod.fst h
        have h2 := congrArg Prod.snd h
        simp at h1 h2
        subst h1
        refine ⟨by simp; omega, ?_, b2, t2, by simp [hrep], hb2⟩
        intro x hx
        rcases List.mem_cons.mp hx with rfl | hx
        · exact hpb
        · exact hall x hx
    · rename_i hpb
      have h1 := congrArg Prod.fst h
      have h2 := congrArg Prod.snd h
      simp at h1 h2
      subst h1
      exact ⟨by simp; omega, by simp, b, rest, rfl, by simpa using hpb⟩

lemma readWhile_ok_inv {p : Nat → Bool} {data : Bytes} {pos : Nat} {run : Bytes}
    {q : Nat} (h : readWhile p data pos = (.ok run, q)) :
    q = pos + run.length ∧ (∀ x ∈ run, p x = true)
      ∧ ∃ b t, data.drop pos = run ++ b :: t ∧ p b = false := by
  unfold readWhile at h
  rcases hres : readWhileAux p (data.drop pos) with ⟨r, c⟩
  rw [hres] at h
  dsimp only at h
  have h1 := congrArg Prod.fst h
  have h2 := congrArg Prod.snd h
  simp at h1 h2
  subst h1
  obtain ⟨hc, hall, hrep⟩ := readWhileAux_ok_inv hres
  exact ⟨by omega, hall, hrep⟩

lemma readNumber_ok_inv {α : Type} {parse : Bytes → Option α} {data : Bytes}
    {pos : Nat} {n : α} {q : Nat} (h : readNumber parse data pos = (.ok n, q)) :
    ∃ run, readWhile isNumber data pos = (.ok run, q)
      ∧ ¬(run = [] ∨ (1 < run.length ∧ run.head? = some 48) ∨ run = [45, 48])
      ∧ parse run = some n := by
  unfold readNumber at h
  rcases hres : readWhile isNumber data pos with ⟨r | run, q2⟩ <;> rw [hres] at h
  · exact absurd (congrArg Prod.fst h) (by simp)
  · dsimp only at h
    split at h
    · exact absurd (congrArg Prod.fst h) (by simp)
    · rename_i hchecks
      rcases hp : parse run with _ | m <;> rw [hp] at h
      · exact absurd (congrArg Prod.fst h) (by simp)
      · have h1 := congrArg Prod.fst h
        have h2 := congrArg Prod.snd h
        simp at h1 h2
        subst h1 h2
        exact ⟨run, rfl, hchecks, hp⟩

lemma readNumber_ok_gt {α : Type} {parse : Bytes → Option α} {data : Bytes}
    {pos : Nat} {n : α} {q : Nat} (h : readNumber parse data pos = (.ok n, q)) :
    pos < q := by
  obtain ⟨run, hw, hch, _⟩ := readNumber_ok_inv h
  obtain ⟨hq, _, _⟩ := readWhile_ok_inv hw
  have hne : run ≠ [] := fun hr => hch (Or.inl hr)
  have : run.length ≠ 0 := by simpa using hne
  omega

lemma readBytes_ok_inv {data : Bytes} {pos : Nat} {s : Bytes} {q : Nat}
    (h : readBytes data pos = (.ok s, q)) :
    ∃ n q1, readNumber parseUsize data pos = (.ok n, q1)
      ∧ expectB data 58 q1 = (.ok (), q1 + 1)
      ∧ n ≤ data.length - (q1 + 1)
      ∧ s = (data.drop (q1 + 1)).take n
      ∧ q = q1 + 1 + n := by
  unfold readBytes at h
  rcases hres : readNumber parseUsize data pos with ⟨r | n, q1⟩ <;> rw [hres] at h
  · exact absurd (congrArg Prod.fst h) (by simp)
  · dsimp only at h
    rcases hres2 : expectB data 58 q1 with ⟨r2 | u2, q2⟩ <;> rw [hres2] at h
    · exact absurd (congrArg Prod.fst h) (by simp)
    · obtain ⟨hq2, _⟩ := expectB_ok_inv hres2
      subst hq2
      dsimp only at h
      split at h
      · exact absurd (congrArg Prod.fst h) (by simp)
      · rename_i hrem
        unfold remaining at hrem
        obtain ⟨hq, hl, hle⟩ := readBuf_ok_inv h
        exact ⟨n, q1, rfl, by rw [hres2], by omega, hl, hq⟩

lemma readStr_ok_inv {data : Bytes} {pos : Nat} {s : Bytes} {q : Nat}
    (h : readStr data pos = (.ok s, q)) :
    readBytes data pos = (.ok s, q) ∧ validUtf8 s = true := by
  unfold readStr at h
  rcases hres : readBytes data pos with ⟨r | s2, q2⟩ <;> rw [hres] at h
  · exact absurd (congrArg Prod.fst h) (by simp)
  · dsimp only at h
    split at h
    · rename_i hv
      have h1 := congrArg Prod.fst h
      have h2 := congrArg Prod.snd h
      simp at h1 h2
      subst h1 h2
      exact ⟨rfl, hv⟩
    · exact absurd (congrArg Prod.fst h) (by simp)

lemma readStr_ok_gt {data : Bytes} {pos : Nat} {s : Bytes} {q : Nat}
    (h : readStr data pos = (.ok s, q)) : pos < q := by
  obtain ⟨hb, _⟩ := readStr_ok_inv h
  obtain ⟨n, q1, hnum, _, _, _, hq⟩ := readBytes_ok_inv hb
  have := readNumber_ok_gt hnum
  omega

lemma readInteger_ok_gt {α : Type} {parse : Bytes → Option α} {data : Bytes}
    {pos : Nat} {n : α} {q : Nat} (h : readInteger parse data pos = (.ok n, q)) :
    pos < q := by
  unfold readInteger at h
  rcases hres : expectB data 105 pos with ⟨r | u, q1⟩ <;> rw [hres] at h
  · exact absurd (congrArg Prod.fst h) (by simp)
  · obtain ⟨hq1, _⟩ := expectB_ok_inv hres
    subst hq1
    dsimp only at h
    rcases hres2 : readNumber parse data (pos + 1) with ⟨r2 | n2, q2⟩ <;> rw [hres2] at h
    · exact absurd (congrArg Prod.fst h) (by simp)
    · have hge : pos + 1 ≤ q2 := by
        have := readNumber_posGe parse data (pos + 1)
        rw [hres2] at this
        exact this
      dsimp only at h
      rcases hres3 : expectB data 101 q2 with ⟨r3 | u3, q3⟩ <;> rw [hres3] at h
      · exact absurd (congrArg Prod.fst h) (by simp)
      · obtain ⟨hq3, _⟩ := expectB_ok_inv hres3
        have := congrArg Prod.snd h
        simp at this
        omega

lemma readBytes_ok_gt {data : Bytes} {pos : Nat} {s : Bytes} {q : Nat}
    (h : readBytes data pos = (.ok s, q)) : pos < q := by
  obtain ⟨n, q1, hnum, _, _, _, hq⟩ := readBytes_ok_inv h
  have := readNumber_ok_gt hnum
  omega

/-- A successful untyped Value decode always consumes at least one byte. -/
lemma decodeValueF_ok_gt {f : Nat} {data : Bytes} {pos : Nat} {v : Value} {p : Nat}
    (h : decodeValueF data f pos = (.ok v, p)) : pos < p := by
  match f with
  | 0 => exact absurd (congrArg Prod.fst h) (by simp [decodeValueF])
  | g + 1 =>
    simp only [decodeValueF] at h
    rcases hpk : peekByte data pos with ⟨r | b, q⟩ <;> rw [hpk] at h
    · exact absurd (congrArg Prod.fst h) (by simp)
    · dsimp only at h
      split_ifs at h with h100 h105 h108 hdig
      · rcases hres : expectB data 100 pos with ⟨r2 | u, q2⟩ <;> rw [hres] at h
        · exact absurd (congrArg Prod.fst h) (by simp)
        · obtain ⟨hq2, _⟩ := expectB_ok_inv hres
          subst hq2
          dsimp only at h
          have hge := dictLoopF_posGe g data [] (pos + 1)
          rcases hres2 : dictLoopF data g [] (pos + 1) with ⟨r3 | es, q3⟩ <;>
            rw [hres2] at h <;> rw [hres2] at hge
          · exact absurd (congrArg Prod.fst h) (by simp)
          · dsimp only at h hge
            have := congrArg Prod.snd h
            simp at this
            omega
      · rcases hres : readInteger parseI64 data pos with ⟨r2 | n2, q2⟩ <;> rw [hres] at h
        · exact absurd (congrArg Prod.fst h) (by simp)
        · have := readInteger_ok_gt hres
          have h2 := congrArg Prod.snd h
          simp at h2
          omega
      · rcases hres : expectB data 108 pos with ⟨r2 | u, q2⟩ <;> rw [hres] at h
        · exact absurd (congrArg Prod.fst h) (by simp)
        · obtain ⟨hq2, _⟩ := expectB_ok_inv hres
          subst hq2
          dsimp only at h
          have hge := listLoopF_posGe g data [] (pos + 1)
          rcases hres2 : listLoopF data g [] (pos + 1) with ⟨r3 | l, q3⟩ <;>
            rw [hres2] at h <;> rw [hres2] at hge
          · exact absurd (congrArg Prod.fst h) (by simp)
          · dsimp only at h hge
            have := congrArg Prod.snd h
            simp at this
            omega
      · rcases hres : readBytes data pos with ⟨r2 | s2, q2⟩ <;> rw [hres] at h
        · exact absurd (congrArg Prod.fst h) (by simp)
        · have := readBytes_ok_gt hres
          have h2 := congrArg Prod.snd h
          simp at h2
          omega
      · exact absurd (congrArg Prod.fst h) (by simp)


/-! Truncation: reading from a strict prefix of the buffer either reproduces
a successful read that fits inside the prefix or fails with Eof. -/

lemma peekByte_ok_inv {data : Bytes} {pos b q : Nat}
    (h : peekByte data pos = (.ok b, q)) :
    q = pos ∧ pos < data.length ∧ data.getD pos 0 = b := by
  unfold peekByte at h
  split at h
  · rename_i hlt
    have h1 := congrArg Prod.fst h
    have h2 := congrArg Prod.snd h
    simp at h1 h2
    refine ⟨h2.symm, hlt, ?_⟩
    rw [List.getD_eq_getElem?_getD]
    exact h1
  · exact absurd (congrArg Prod.fst h) (by simp)

lemma peekByte_take_lt {data : Bytes} {pos b k : Nat} (hk : pos < k)
    (hlen : k ≤ data.length) (h : peekByte data pos = (.ok b, pos)) :
    peekByte (data.take k) pos = (.ok b, pos) := by
  obtain ⟨_, hpos, hget⟩ := peekByte_ok_inv h
  unfold peekByte
  rw [if_pos (by rw [List.length_take_of_le hlen]; omega)]
  have : (data.take k).getD pos 0 = data.getD pos 0 := by
    rw [List.getD_eq_getElem?_getD, List.getD_eq_getElem?_getD,
      List.getElem?_take_of_lt hk]
  rw [this, hget]

lemma peekByte_take_end {data : Bytes} {pos k : Nat} (hk : k ≤ pos) :
    peekByte (data.take k) pos = (.error .eof, pos) := by
  unfold peekByte
  rw [if_neg]
  have := List.length_take_le k data
  omega

lemma readBuf_take_ok {data : Bytes} {n pos : Nat} {l : Bytes} {p k : Nat}
    (h : readBuf data n pos = (.ok l, p)) (hp : p ≤ k) (hlen : k ≤ data.length) :
    readBuf (data.take k) n pos = (.ok l, p) := by
  obtain ⟨hq, hl, hle⟩ := readBuf_ok_inv h
  subst hq hl
  unfold readBuf
  rw [if_pos (by rw [List.length_take_of_le hlen]; omega)]
  have hslice : ((data.take k).drop pos).take n = (data.drop pos).take n := by
    rw [List.drop_take, List.take_take]
    congr 1
    omega
  rw [hslice]

lemma readBuf_take_eof {data : Bytes} {n pos k : Nat} (hk : k < pos + n)
    (hk2 : pos ≤ k) : (readBuf (data.take k) n pos).1 = .error .eof := by
  unfold readBuf
  rw [if_neg]
  have := List.length_take_le k data
  omega

lemma readByte_take_ok {data : Bytes} {pos b : Nat} {p k : Nat}
    (h : readByte data pos = (.ok b, p)) (hp : p ≤ k) (hlen : k ≤ data.length) :
    readByte (data.take k) pos = (.ok b, p) := by
  unfold readByte at h ⊢
  rcases hres : readBuf data 1 pos with ⟨r | l, q⟩ <;> rw [hres] at h
  · exact absurd (congrArg Prod.fst h) (by simp)
  · dsimp only at h
    simp only [Prod.mk.injEq, Except.ok.injEq] at h
    obtain ⟨h1, h2⟩ := h
    subst h2
    rw [readBuf_take_ok hres hp hlen]
    dsimp only
    rw [h1]

lemma readByte_take_eof {data : Bytes} {pos k : Nat} (hk : k = pos) :
    (readByte (data.take k) pos).1 = .error .eof := by
  unfold readByte
  have := @readBuf_take_eof data 1 pos k (by omega) (by omega)
  rcases hres : readBuf (data.take k) 1 pos with ⟨r | l, q⟩ <;> rw [hres] at this
  · simp at this
    rw [this]
  · exact absurd this (by simp)

lemma expectB_take_ok {data : Bytes} {c pos : Nat} {u : Unit} {p k : Nat}
    (h : expectB data c pos = (.ok u, p)) (hp : p ≤ k) (hlen : k ≤ data.length) :
    expectB (data.take k) c pos = (.ok (), p) := by
  unfold expectB at h ⊢
  rcases hres : readByte data pos with ⟨r | b, q⟩ <;> rw [hres] at h
  · exact absurd (congrArg Prod.fst h) (by simp)
  · dsimp only at h
    split at h
    · rename_i hbc
      have h2 := congrArg Prod.snd h
      simp at h2
      subst h2 hbc
      rw [readByte_take_ok hres hp hlen]
      dsimp only
      rw [if_pos rfl]
    · exact absurd (congrArg Prod.fst h) (by simp)

lemma expectB_take_eof {data : Bytes} {c pos k : Nat} (hk : k = pos) :
    (expectB (data.take k) c pos).1 = .error .eof := by
  unfold expectB
  have := @readByte_take_eof data pos k hk
  rcases hres : readByte (data.take k) pos with ⟨r | b, q⟩ <;> rw [hres] at this
  · simp at this
    rw [this]
  · exact absurd this (by simp)

lemma readWhileAux_all {p : Nat → Bool} :
    ∀ {l : Bytes}, (∀ x ∈ l, p x = true) → (readWhileAux p l).1 = .error .eof := by
  intro l
  induction l with
  | nil => intro _; rfl
  | cons b rest ih =>
    intro hall
    unfold readWhileAux
    rw [if_pos (hall b (by simp))]
    have := ih (fun x hx => hall x (by simp [hx]))
    rcases hres : readWhileAux p rest with ⟨r | r, c⟩ <;> rw [hres] at this
    · simp at this
      rw [this]
    · exact absurd this (by simp)

lemma readWhile_take_ok {p : Nat → Bool} {data : Bytes} {pos : Nat} {run : Bytes}
    {q k : Nat} (h : readWhile p data pos = (.ok run, q)) (hp : q + 1 ≤ k)
    (hlen : k ≤ data.length) : readWhile p (data.take k) pos = (.ok run, q) := by
  obtain ⟨hq, hall, b, t, hrep, hb⟩ := readWhile_ok_inv h
  subst hq
  obtain ⟨m, hmeq⟩ : ∃ m, k - pos = run.length + (m + 1) :=
    ⟨k - pos - run.length - 1, by omega⟩
  have hdrop : (data.take k).drop pos = run ++ b :: (t.take m) := by
    rw [List.drop_take, hrep, hmeq, List.take_append, List.take_succ_cons]
  exact readWhile_block hdrop hall hb

lemma readWhile_take_eof {p : Nat → Bool} {data : Bytes} {pos : Nat} {run : Bytes}
    {q k : Nat} (h : readWhile p data pos = (.ok run, q)) (h1 : pos ≤ k) (h2 : k ≤ q) :
    (readWhile p (data.take k) pos).1 = .error .eof := by
  obtain ⟨hq, hall, b, t, hrep, hb⟩ := readWhile_ok_inv h
  subst hq
  unfold readWhile
  dsimp only
  have hdrop : (data.take k).drop pos = run.take (k - pos) := by
    rw [List.drop_take, hrep, List.take_append_of_le_length (by omega)]
  rw [hdrop]
  exact readWhileAux_all (fun x hx => hall x (List.mem_of_mem_take hx))

lemma readNumber_take_ok {α : Type} {parse : Bytes → Option α} {data : Bytes}
    {pos : Nat} {n : α} {q k : Nat} (h : readNumber parse data pos = (.ok n, q))
    (hk : q + 1 ≤ k) (hlen : k ≤ data.length) :
    readNumber parse (data.take k) pos = (.ok n, q) := by
  obtain ⟨run, hw, hch, hp⟩ := readNumber_ok_inv h
  unfold readNumber
  rw [readWhile_take_ok hw hk hlen]
  dsimp only
  rw [if_neg hch, hp]

lemma readNumber_take_eof {α : Type} {parse : Bytes → Option α} {data : Bytes}
    {pos : Nat} {n : α} {q k : Nat} (h : readNumber parse data pos = (.ok n, q))
    (h1 : pos ≤ k) (h2 : k ≤ q) :
    (readNumber parse (data.take k) pos).1 = .error .eof := by
  obtain ⟨run, hw, _, _⟩ := readNumber_ok_inv h
  unfold readNumber
  have heof := readWhile_take_eof hw h1 h2
  rcases hres : readWhile isNumber (data.take k) pos with ⟨r | r, q2⟩
  all_goals rw [hres] at heof
  · simp at heof
    rw [heof]
  · exact absurd heof (by simp)

lemma readBytes_take_ok {data : Bytes} {pos : Nat} {s : Bytes} {q k : Nat}
    (h : readBytes data pos = (.ok s, q)) (hk : q ≤ k) (hlen : k ≤ data.length) :
    readBytes (data.take k) pos = (.ok s, q) := by
  obtain ⟨n, q1, hnum, hexp, hle, hs, hq⟩ := readBytes_ok_inv h
  have hrb : readBuf data n (q1 + 1) = (.ok s, q) := by
    unfold readBuf
    rw [if_pos (by omega), hs, hq]
  unfold readBytes
  rw [readNumber_take_ok hnum (by omega) hlen]
  dsimp only
  rw [expectB_take_ok hexp (by omega) hlen]
  dsimp only
  have hrem : remaining (data.take k) (q1 + 1) = k - (q1 + 1) := by
    unfold remaining
    rw [List.length_take_of_le hlen]
  rw [hrem, if_neg (by omega)]
  exact readBuf_take_ok hrb (by omega) hlen

lemma readBytes_take_eof {data : Bytes} {pos : Nat} {s : Bytes} {q k : Nat}
    (h : readBytes data pos = (.ok s, q)) (h1 : pos ≤ k) (h2 : k < q)
    (hlen : k ≤ data.length) :
    (readBytes (data.take k) pos).1 = .error .eof := by
  obtain ⟨n, q1, hnum, hexp, hle, hs, hq⟩ := readBytes_ok_inv h
  unfold readBytes
  by_cases hk1 : k ≤ q1
  · have heof := readNumber_take_eof hnum h1 hk1
    rcases hres : readNumber parseUsize (data.take k) pos with ⟨r | m, q2⟩
    all_goals rw [hres] at heof
    · simp at heof
      rw [heof]
    · exact absurd heof (by simp)
  · rw [readNumber_take_ok hnum (by omega) hlen]
    dsimp only
    rw [expectB_take_ok hexp (by omega) hlen]
    dsimp only
    have hrem : remaining (data.take k) (q1 + 1) = k - (q1 + 1) := by
      unfold remaining
      rw [List.length_take_of_le hlen]
    rw [hrem, if_pos (by omega)]

lemma readStr_take_ok {data : Bytes} {pos : Nat} {s : Bytes} {q k : Nat}
    (h : readStr data pos = (.ok s, q)) (hk : q ≤ k) (hlen : k ≤ data.length) :
    readStr (data.take k) pos = (.ok s, q) := by
  obtain ⟨hb, hv⟩ := readStr_ok_inv h
  unfold readStr
  rw [readBytes_take_ok hb hk hlen]
  dsimp only
  rw [if_pos hv]

lemma readStr_take_eof {data : Bytes} {pos : Nat} {s : Bytes} {q k : Nat}
    (h : readStr data pos = (.ok s, q)) (h1 : pos ≤ k) (h2 : k < q)
    (hlen : k ≤ data.length) :
    (readStr (data.take k) pos).1 = .error .eof := by
  obtain ⟨hb, _⟩ := readStr_ok_inv h
  unfold readStr
  have heof := readBytes_take_eof hb h1 h2 hlen
  rcases hres : readBytes (data.take k) pos with ⟨r | s2, q2⟩
  all_goals rw [hres] at heof
  · simp at heof
    rw [heof]
  · exact absurd heof (by simp)

lemma readInteger_ok_inv {α : Type} {parse : Bytes → Option α} {data : Bytes}
    {pos : Nat} {n : α} {q : Nat} (h : readInteger parse data pos = (.ok n, q)) :
    ∃ q2, expectB data 105 pos = (.ok (), pos + 1)
      ∧ readNumber parse data (pos + 1) = (.ok n, q2)
      ∧ expectB data 101 q2 = (.ok (), q2 + 1)
      ∧ q = q2 + 1 := by
  unfold readInteger at h
  rcases hres : expectB data 105 pos with ⟨r | u, q1⟩ <;> rw [hres] at h
  · exact absurd (congrArg Prod.fst h) (by simp)
  · obtain ⟨hq1, _⟩ := expectB_ok_inv hres
    subst hq1
    dsimp only at h
    rcases hres2 : readNumber parse data (pos + 1) with ⟨r2 | n2, q2⟩ <;> rw [hres2] at h
    · exact absurd (congrArg Prod.fst h) (by simp)
    · dsimp only at h
      rcases hres3 : expectB data 101 q2 with ⟨r3 | u3, q3⟩ <;> rw [hres3] at h
      · exact absurd (congrArg Prod.fst h) (by simp)
      · obtain ⟨hq3, _⟩ := expectB_ok_inv hres3
        subst hq3
        simp only [Prod.mk.injEq, Except.ok.injEq] at h
        obtain ⟨hn, hq⟩ := h
        subst hn
        exact ⟨q2, rfl, rfl, by rw [hres3], hq.symm⟩

lemma readInteger_take_ok {α : Type} {parse : Bytes → Option α} {data : Bytes}
    {pos : Nat} {n : α} {q k : Nat} (h : readInteger parse data pos = (.ok n, q))
    (hk : q ≤ k) (hlen : k ≤ data.length) :
    readInteger parse (data.take k) pos = (.ok n, q) := by
  obtain ⟨q2, hexp1, hnum, hexp2, hq⟩ := readInteger_ok_inv h
  have hgt := readNumber_ok_gt hnum
  unfold readInteger
  rw [expectB_take_ok hexp1 (by omega) hlen]
  dsimp only
  rw [readNumber_take_ok hnum (by omega) hlen]
  dsimp only
  rw [expectB_take_ok hexp2 (by omega) hlen]
  dsimp only
  rw [hq]

lemma readInteger_take_eof {α : Type} {parse : Bytes → Option α} {data : Bytes}
    {pos : Nat} {n : α} {q k : Nat} (h : readInteger parse data pos = (.ok n, q))
    (h1 : pos ≤ k) (h2 : k < q) (hlen : k ≤ data.length) :
    (readInteger parse (data.take k) pos).1 = .error .eof := by
  obtain ⟨q2, hexp1, hnum, hexp2, hq⟩ := readInteger_ok_inv h
  have hgt := readNumber_ok_gt hnum
  unfold readInteger
  by_cases hk0 : k = pos
  · have heof := @expectB_take_eof data 105 pos k hk0
    rcases hres : expectB (data.take k) 105 pos with ⟨r | u, q3⟩
    all_goals rw [hres] at heof
    · simp at heof
      rw [heof]
    · exact absurd heof (by simp)
  · rw [expectB_take_ok hexp1 (by omega) hlen]
    dsimp only
    have heof := readNumber_take_eof hnum (show pos + 1 ≤ k by omega)
      (show k ≤ q2 by omega)
    rcases hres : readNumber parse (data.take k) (pos + 1) with ⟨r | m, q3⟩
    all_goals rw [hres] at heof
    · simp at heof
      rw [heof]
    · exact absurd heof (by simp)

lemma dictLoopF_ok_gt {f : Nat} {data : Bytes} {acc res : List (Bytes × Value)}
    {pos p : Nat} (h : dictLoopF data f acc pos = (.ok res, p)) : pos < p := by
  match f with
  | 0 => exact absurd (congrArg Prod.fst h) (by simp [dictLoopF])
  | g + 1 =>
    simp only [dictLoopF] at h
    rcases hpk : peekByte data pos with ⟨r | b, q⟩ <;> rw [hpk] at h
    · exact absurd (congrArg Prod.fst h) (by simp)
    · dsimp only at h
      split_ifs at h with h101
      · rcases hres : expectB data 101 pos with ⟨r2 | u, q2⟩ <;> rw [hres] at h
        · exact absurd (congrArg Prod.fst h) (by simp)
        · obtain ⟨hq2, _⟩ := expectB_ok_inv hres
          have h2 := congrArg Prod.snd h
          simp at h2
          omega
      · rcases hres : readStr data pos with ⟨r2 | k2, q2⟩ <;> rw [hres] at h
        · exact absurd (congrArg Prod.fst h) (by simp)
        · have hgt := readStr_ok_gt hres
          dsimp only at h
          split_ifs at h with hchk
          · exact absurd (congrArg Prod.fst h) (by simp)
          · rcases hres2 : decodeValueF data g q2 with ⟨r3 | v, q3⟩ <;> rw [hres2] at h
            · exact absurd (congrArg Prod.fst h) (by simp)
            · have hge : q2 ≤ q3 := by
                have := decodeValueF_posGe g data q2
                rw [hres2] at this
                exact this
              dsimp only at h
              have hge2 : q3 ≤ p := by
                have := dictLoopF_posGe g data (btreeInsert acc k2 v) q3
                rw [h] at this
                exact this
              omega

lemma listLoopF_ok_gt {f : Nat} {data : Bytes} {acc res : List Value}
    {pos p : Nat} (h : listLoopF data f acc pos = (.ok res, p)) : pos < p := by
  match f with
  | 0 => exact absurd (congrArg Prod.fst h) (by simp [listLoopF])
  | g + 1 =>
    simp only [listLoopF] at h
    rcases hpk : peekByte data pos with ⟨r | b, q⟩ <;> rw [hpk] at h
    · exact absurd (congrArg Prod.fst h) (by simp)
    · dsimp only at h
      split_ifs at h with h101
      · rcases hres : expectB data 101 pos with ⟨r2 | u, q2⟩ <;> rw [hres] at h
        · exact absurd (congrArg Prod.fst h) (by simp)
        · obtain ⟨hq2, _⟩ := expectB_ok_inv hres
          have h2 := congrArg Prod.snd h
          simp at h2
          omega
      · rcases hres : decodeValueF data g pos with ⟨r2 | v, q2⟩ <;> rw [hres] at h
        · exact absurd (congrArg Prod.fst h) (by simp)
        · have hgt := decodeValueF_ok_gt hres
          dsimp only at h
          have hge : q2 ≤ p := by
            have := listLoopF_posGe g data (acc ++ [v]) q2
            rw [h] at this
            exact this
          omega

mutual
/-- Truncating the buffer behind a successful Value decode: the truncated
run (with any fuel) reproduces the decode when it fits inside the kept
prefix (or runs out of fuel, reporting Eof) and fails with Eof when the
truncation point cuts the value. -/
theorem decodeValueF_take (fp : Nat) (f : Nat) (data : Bytes) (pos : Nat)
    (v : Value) (p k : Nat) (h : decodeValueF data f pos = (.ok v, p))
    (hpos : pos ≤ k) (hk : k ≤ data.length) :
    (p ≤ k → decodeValueF (data.take k) fp pos = (.ok v, p)
      ∨ (decodeValueF (data.take k) fp pos).1 = .error .eof)
    ∧ (k < p → (decodeValueF (data.take k) fp pos).1 = .error .eof) := by
  match fp with
  | 0 => exact ⟨fun _ => Or.inr (by simp [decodeValueF]), fun _ => by simp [decodeValueF]⟩
  | fg + 1 =>
    have hgt := decodeValueF_ok_gt h
    match f with
    | 0 => exact absurd (congrArg Prod.fst h) (by simp [decodeValueF])
    | g + 1 =>
      by_cases hke : k = pos
      · subst hke
        have hpk : peekByte (data.take k) k = (.error .eof, k) := peekByte_take_end le_rfl
        refine ⟨fun hple => absurd hple (by omega), fun _ => ?_⟩
        simp only [decodeValueF]
        rw [hpk]
      · have hlt : pos < k := by omega
        simp only [decodeValueF] at h
        rcases hpk : peekByte data pos with ⟨r | b, q⟩ <;> rw [hpk] at h
        · exact absurd (congrArg Prod.fst h) (by simp)
        · obtain ⟨hq, -, -⟩ := peekByte_ok_inv hpk
          rw [hq] at hpk h
          have hpk2 : peekByte (data.take k) pos = (.ok b, pos) :=
            peekByte_take_lt hlt hk hpk
          dsimp only at h
          split_ifs at h with h100 h105 h108 hdig
          · rcases hexp : expectB data 100 pos with ⟨r2 | u2, q2⟩ <;> rw [hexp] at h
            · exact absurd (congrArg Prod.fst h) (by simp)
            · obtain ⟨hq2, _⟩ := expectB_ok_inv hexp
              subst hq2
              dsimp only at h
              rcases hloop : dictLoopF data g [] (pos + 1) with ⟨r3 | es, q3⟩ <;>
                rw [hloop] at h
              · exact absurd (congrArg Prod.fst h) (by simp)
              · simp only [Prod.mk.injEq, Except.ok.injEq] at h
                obtain ⟨hv, hp⟩ := h
                subst hv hp
                have hexp2 : expectB (data.take k) 100 pos = (.ok (), pos + 1) :=
                  expectB_take_ok hexp (by omega) hk
                have hih := dictLoopF_take fg g data [] (pos + 1) es q3 k hloop
                  (by omega) hk
                refine ⟨fun hple => ?_, fun hklt => ?_⟩
                · rcases hih.1 hple with hok | heof
                  · refine Or.inl ?_
                    simp only [decodeValueF]
                    rw [hpk2]
                    dsimp only
                    rw [if_pos h100, hexp2]
                    dsimp only
                    rw [hok]
                  · refine Or.inr ?_
                    simp only [decodeValueF]
                    rw [hpk2]
                    dsimp only
                    rw [if_pos h100, hexp2]
                    dsimp only
                    rcases hres : dictLoopF (data.take k) fg [] (pos + 1) with ⟨r4 | l4, q4⟩
                    all_goals rw [hres] at heof
                    · simp at heof
                      rw [heof]
                    · exact absurd heof (by simp)
                · have heof := hih.2 hklt
                  simp only [decodeValueF]
                  rw [hpk2]
                  dsimp only
                  rw [if_pos h100, hexp2]
                  dsimp only
                  rcases hres : dictLoopF (data.take k) fg [] (pos + 1) with ⟨r4 | l4, q4⟩
                  all_goals rw [hres] at heof
                  · simp at heof
                    rw [heof]
                  · exact absurd heof (by simp)
          · rcases hint : readInteger parseI64 data pos with ⟨r2 | n2, q2⟩ <;> rw [hint] at h
            · exact absurd (congrArg Prod.fst h) (by simp)
            · simp only [Prod.mk.injEq, Except.ok.injEq] at h
              obtain ⟨hv, hp⟩ := h
              subst hv hp
              refine ⟨fun hple => ?_, fun hklt => ?_⟩
              · refine Or.inl ?_
                simp only [decodeValueF]
                rw [hpk2]
                dsimp only
                rw [if_neg h100, if_pos h105, readInteger_take_ok hint hple hk]
              · simp only [decodeValueF]
                rw [hpk2]
                dsimp only
                rw [if_neg h100, if_pos h105]
                have heof := readInteger_take_eof hint hpos hklt hk
                rcases hres : readInteger parseI64 (data.take k) pos with ⟨r3 | n3, q3⟩
                all_goals rw [hres] at heof
                · simp at heof
                  rw [heof]
                · exact absurd heof (by simp)
          · rcases hexp : expectB data 108 pos with ⟨r2 | u2, q2⟩ <;> rw [hexp] at h
            · exact absurd (congrArg Prod.fst h) (by simp)
            · obtain ⟨hq2, _⟩ := expectB_ok_inv hexp
              subst hq2
              dsimp only at h
              rcases hloop : listLoopF data g [] (pos + 1) with ⟨r3 | l3, q3⟩ <;>
                rw [hloop] at h
              · exact absurd (congrArg Prod.fst h) (by simp)
              · simp only [Prod.mk.injEq, Except.ok.injEq] at h
                obtain ⟨hv, hp⟩ := h
                subst hv hp
                have hexp2 : expectB (data.take k) 108 pos = (.ok (), pos + 1) :=
                  expectB_take_ok hexp (by omega) hk
                have hih := listLoopF_take fg g data [] (pos + 1) l3 q3 k hloop
                  (by omega) hk
                refine ⟨fun hple => ?_, fun hklt => ?_⟩
                · rcases hih.1 hple with hok | heof
                  · refine Or.inl ?_
                    simp only [decodeValueF]
                    rw [hpk2]
                    dsimp only
                    rw [if_neg h100, if_neg h105, if_pos h108, hexp2]
                    dsimp only
                    rw [hok]
                  · refine Or.inr ?_
                    simp only [decodeValueF]
                    rw [hpk2]
                    dsimp only
                    rw [if_neg h100, if_neg h105, if_pos h108, hexp2]
                    dsimp only
                    rcases hres : listLoopF (data.take k) fg [] (pos + 1) with ⟨r4 | l4, q4⟩
                    all_goals rw [hres] at heof
                    · simp at heof
                      rw [heof]
                    · exact absurd heof (by simp)
                · have heof := hih.2 hklt
                  simp only [decodeValueF]
                  rw [hpk2]
                  dsimp only
                  rw [if_neg h100, if_neg h105, if_pos h108, hexp2]
                  dsimp only
                  rcases hres : listLoopF (data.take k) fg [] (pos + 1) with ⟨r4 | l4, q4⟩
                  all_goals rw [hres] at heof
                  · simp at heof
                    rw [heof]
                  · exact absurd heof (by simp)
          · rcases hbytes : readBytes data pos with ⟨r2 | s2, q2⟩ <;> rw [hbytes] at h
            · exact absurd (congrArg Prod.fst h) (by simp)
            · simp only [Prod.mk.injEq, Except.ok.injEq] at h
              obtain ⟨hv, hp⟩ := h
              subst hv hp
              refine ⟨fun hple => ?_, fun hklt => ?_⟩
              · refine Or.inl ?_
                simp only [decodeValueF]
                rw [hpk2]
                dsimp only
                rw [if_neg h100, if_neg h105, if_neg h108, if_pos hdig,
                  readBytes_take_ok hbytes hple hk]
              · simp only [decodeValueF]
                rw [hpk2]
                dsimp only
                rw [if_neg h100, if_neg h105, if_neg h108, if_pos hdig]
                have heof := readBytes_take_eof hbytes hpos hklt hk
                rcases hres : readBytes (data.take k) pos with ⟨r3 | s3, q3⟩
                all_goals rw [hres] at heof
                · simp at heof
                  rw [heof]
                · exact absurd heof (by simp)
          · exact absurd (congrArg Prod.fst h) (by simp)

theorem dictLoopF_take (fp : Nat) (f : Nat) (data : Bytes)
    (acc : List (Bytes × Value)) (pos : Nat) (res : List (Bytes × Value))
    (p k : Nat) (h : dictLoopF data f acc pos = (.ok res, p))
    (hpos : pos ≤ k) (hk : k ≤ data.length) :
    (p ≤ k → dictLoopF (data.take k) fp acc pos = (.ok res, p)
      ∨ (dictLoopF (data.take k) fp acc pos).1 = .error .eof)
    ∧ (k < p → (dictLoopF (data.take k) fp acc pos).1 = .error .eof) := by
  match fp with
  | 0 => exact ⟨fun _ => Or.inr (by simp [dictLoopF]), fun _ => by simp [dictLoopF]⟩
  | fg + 1 =>
    have hgt := dictLoopF_ok_gt h
    match f with
    | 0 => exact absurd (congrArg Prod.fst h) (by simp [dictLoopF])
    | g + 1 =>
      by_cases hke : k = pos
      · subst hke
        have hpk : peekByte (data.take k) k = (.error .eof, k) := peekByte_take_end le_rfl
        refine ⟨fun hple => absurd hple (by omega), fun _ => ?_⟩
        simp only [dictLoopF]
        rw [hpk]
      · have hlt : pos < k := by omega
        simp only [dictLoopF] at h
        rcases hpk : peekByte data pos with ⟨r | b, q⟩ <;> rw [hpk] at h
        · exact absurd (congrArg Prod.fst h) (by simp)
        · obtain ⟨hq, -, -⟩ := peekByte_ok_inv hpk
          rw [hq] at hpk h
          have hpk2 : peekByte (data.take k) pos = (.ok b, pos) :=
            peekByte_take_lt hlt hk hpk
          dsimp only at h
          split_ifs at h with h101
          · rcases hexp : expectB data 101 pos with ⟨r2 | u2, q2⟩ <;> rw [hexp] at h
            · exact absurd (congrArg Prod.fst h) (by simp)
            · obtain ⟨hq2, _⟩ := expectB_ok_inv hexp
              subst hq2
              simp only [Prod.mk.injEq, Except.ok.injEq] at h
              obtain ⟨hv, hp⟩ := h
              subst hv hp
              refine ⟨fun hple => ?_, fun hklt => ?_⟩
              · refine Or.inl ?_
                simp only [dictLoopF]
                rw [hpk2]
                dsimp only
                rw [if_pos h101, expectB_take_ok hexp (by omega) hk]
              · exact absurd hklt (by omega)
          · rcases hkey : readStr data pos with ⟨r2 | k2, q2⟩ <;> rw [hkey] at h
            · exact absurd (congrArg Prod.fst h) (by simp)
            · have hkgt := readStr_ok_gt hkey
              dsimp only at h
              split_ifs at h with hchk
              · exact absurd (congrArg Prod.fst h) (by simp)
              · rcases hval : decodeValueF data g q2 with ⟨r3 | v, q3⟩ <;> rw [hval] at h
                · exact absurd (congrArg Prod.fst h) (by simp)
                · have hvgt := decodeValueF_ok_gt hval
                  dsimp only at h
                  have hlge : q3 ≤ p := by
                    have := dictLoopF_posGe g data (btreeInsert acc k2 v) q3
                    rw [h] at this
                    exact this
                  have hihv := decodeValueF_take fg g data q2 v q3 k hval
                  have hihl := dictLoopF_take fg g data (btreeInsert acc k2 v) q3 res
                    p k h
                  refine ⟨fun hple => ?_, fun hklt => ?_⟩
                  · have hkey2 : readStr (data.take k) pos = (.ok k2, q2) :=
                      readStr_take_ok hkey (by omega) hk
                    rcases (hihv (by omega) hk).1 (by omega) with hvok | hveof
                    · rcases (hihl (by omega) hk).1 hple with hlok | hleof
                      · refine Or.inl ?_
                        simp only [dictLoopF]
                        rw [hpk2]
                        dsimp only
                        rw [if_neg h101, hkey2]
                        dsimp only
                        rw [if_neg hchk, hvok]
                        dsimp only
                        rw [hlok]
                      · refine Or.inr ?_
                        simp only [dictLoopF]
                        rw [hpk2]
                        dsimp only
                        rw [if_neg h101, hkey2]
                        dsimp only
                        rw [if_neg hchk, hvok]
                        dsimp only
                        rcases hres : dictLoopF (data.take k) fg (btreeInsert acc k2 v) q3
                          with ⟨r4 | l4, q4⟩
                        all_goals rw [hres] at hleof
                        · simp at hleof
                          rw [hleof]
                        · exact absurd hleof (by simp)
                    · refine Or.inr ?_
                      simp only [dictLoopF]
                      rw [hpk2]
                      dsimp only
                      rw [if_neg h101, hkey2]
                      dsimp only
                      rw [if_neg hchk]
                      rcases hres : decodeValueF (data.take k) fg q2 with ⟨r4 | v4, q4⟩
                      all_goals rw [hres] at hveof
                      · simp at hveof
                        rw [hveof]
                      · exact absurd hveof (by simp)
                  · by_cases hkq2 : k < q2
                    · have heof := readStr_take_eof hkey hpos hkq2 hk
                      simp only [dictLoopF]
                      rw [hpk2]
                      dsimp only
                      rw [if_neg h101]
                      rcases hres : readStr (data.take k) pos with ⟨r4 | k4, q4⟩
                      all_goals rw [hres] at heof
                      · simp at heof
                        rw [heof]
                      · exact absurd heof (by simp)
                    · have hkey2 : readStr (data.take k) pos = (.ok k2, q2) :=
                        readStr_take_ok hkey (by omega) hk
                      by_cases hkq3 : k < q3
                      · have hveof := (hihv (by omega) hk).2 hkq3
                        simp only [dictLoopF]
                        rw [hpk2]
                        dsimp only
                        rw [if_neg h101, hkey2]
                        dsimp only
                        rw [if_neg hchk]
                        rcases hres : decodeValueF (data.take k) fg q2 with ⟨r4 | v4, q4⟩
                        all_goals rw [hres] at hveof
                        · simp at hveof
                          rw [hveof]
                        · exact absurd hveof (by simp)
                      · rcases (hihv (by omega) hk).1 (by omega) with hvok | hveof
                        · have hleof := (hihl (by omega) hk).2 hklt
                          simp only [dictLoopF]
                          rw [hpk2]
                          dsimp only
                          rw [if_neg h101, hkey2]
                          dsimp only
                          rw [if_neg hchk, hvok]
                          dsimp only
                          rcases hres : dictLoopF (data.take k) fg (btreeInsert acc k2 v) q3
                            with ⟨r4 | l4, q4⟩
                          all_goals rw [hres] at hleof
                          · simp at hleof
                            rw [hleof]
                          · exact absurd hleof (by simp)
                        · simp only [dictLoopF]
                          rw [hpk2]
                          dsimp only
                          rw [if_neg h101, hkey2]
                          dsimp only
                          rw [if_neg hchk]
                          rcases hres : decodeValueF (data.take k) fg q2 with ⟨r4 | v4, q4⟩
                          all_goals rw [hres] at hveof
                          · simp at hveof
                            rw [hveof]
                          · exact absurd hveof (by simp)

theorem listLoopF_take (fp : Nat) (f : Nat) (data : Bytes) (acc : List Value)
    (pos : Nat) (res : List Value) (p k : Nat)
    (h : listLoopF data f acc pos = (.ok res, p))
    (hpos : pos ≤ k) (hk : k ≤ data.length) :
    (p ≤ k → listLoopF (data.take k) fp acc pos = (.ok res, p)
      ∨ (listLoopF (data.take k) fp acc pos).1 = .error .eof)
    ∧ (k < p → (listLoopF (data.take k) fp acc pos).1 = .error .eof) := by
  match fp with
  | 0 => exact ⟨fun _ => Or.inr (by simp [listLoopF]), fun _ => by simp [listLoopF]⟩
  | fg + 1 =>
    have hgt := listLoopF_ok_gt h
    match f with
    | 0 => exact absurd (congrArg Prod.fst h) (by simp [listLoopF])
    | g + 1 =>
      by_cases hke : k = pos
      · subst hke
        have hpk : peekByte (data.take k) k = (.error .eof, k) := peekByte_take_end le_rfl
        refine ⟨fun hple => absurd hple (by omega), fun _ => ?_⟩
        simp only [listLoopF]
        rw [hpk]
      · have hlt : pos < k := by omega
        simp only [listLoopF] at h
        rcases hpk : peekByte data pos with ⟨r | b, q⟩ <;> rw [hpk] at h
        · exact absurd (congrArg Prod.fst h) (by simp)
        · obtain ⟨hq, -, -⟩ := peekByte_ok_inv hpk
          rw [hq] at hpk h
          have hpk2 : peekByte (data.take k) pos = (.ok b, pos) :=
            peekByte_take_lt hlt hk hpk
          dsimp only at h
          split_ifs at h with h101
          · rcases hexp : expectB data 101 pos with ⟨r2 | u2, q2⟩ <;> rw [hexp] at h
            · exact absurd (congrArg Prod.fst h) (by simp)
            · obtain ⟨hq2, _⟩ := expectB_ok_inv hexp
              subst hq2
              simp only [Prod.mk.injEq, Except.ok.injEq] at h
              obtain ⟨hv, hp⟩ := h
              subst hv hp
              refine ⟨fun hple => ?_, fun hklt => ?_⟩
              · refine Or.inl ?_
                simp only [listLoopF]
                rw [hpk2]
                dsimp only
                rw [if_pos h101, expectB_take_ok hexp (by omega) hk]
              · exact absurd hklt (by omega)
          · rcases hval : decodeValueF data g pos with ⟨r3 | v, q3⟩ <;> rw [hval] at h
            · exact absurd (congrArg Prod.fst h) (by simp)
            · have hvgt := decodeValueF_ok_gt hval
              dsimp only at h
              have hlge : q3 ≤ p := by
                have := listLoopF_posGe g data (acc ++ [v]) q3
                rw [h] at this
                exact this
              have hihv := decodeValueF_take fg g data pos v q3 k hval hpos hk
              have hihl := listLoopF_take fg g data (acc ++ [v]) q3 res p k h
              refine ⟨fun hple => ?_, fun hklt => ?_⟩
              · rcases hihv.1 (by omega) with hvok | hveof
                · rcases (hihl (by omega) hk).1 hple with hlok | hleof
                  · refine Or.inl ?_
                    simp only [listLoopF]
                    rw [hpk2]
                    dsimp only
                    rw [if_neg h101, hvok]
                    dsimp only
                    rw [hlok]
                  · refine Or.inr ?_
                    simp only [listLoopF]
                    rw [hpk2]
                    dsimp only
                    rw [if_neg h101, hvok]
                    dsimp only
                    rcases hres : listLoopF (data.take k) fg (acc ++ [v]) q3
                      with ⟨r4 | l4, q4⟩
                    all_goals rw [hres] at hleof
                    · simp at hleof
                      rw [hleof]
                    · exact absurd hleof (by simp)
                · refine Or.inr ?_
                  simp only [listLoopF]
                  rw [hpk2]
                  dsimp only
                  rw [if_neg h101]
                  rcases hres : decodeValueF (data.take k) fg pos with ⟨r4 | v4, q4⟩
                  all_goals rw [hres] at hveof
                  · simp at hveof
                    rw [hveof]
                  · exact absurd hveof (by simp)
              · by_cases hkq3 : k < q3
                · have hveof := hihv.2 hkq3
                  simp only [listLoopF]
                  rw [hpk2]
                  dsimp only
                  rw [if_neg h101]
                  rcases hres : decodeValueF (data.take k) fg pos with ⟨r4 | v4, q4⟩
                  all_goals rw [hres] at hveof
                  · simp at hveof
                    rw [hveof]
                  · exact absurd hveof (by simp)
                · rcases hihv.1 (by omega) with hvok | hveof
                  · have hleof := (hihl (by omega) hk).2 hklt
                    simp only [listLoopF]
                    rw [hpk2]
                    dsimp only
                    rw [if_neg h101, hvok]
                    dsimp only
                    rcases hres : listLoopF (data.take k) fg (acc ++ [v]) q3
                      with ⟨r4 | l4, q4⟩
                    all_goals rw [hres] at hleof
                    · simp at hleof
                      rw [hleof]
                    · exact absurd hleof (by simp)
                  · simp only [listLoopF]
                    rw [hpk2]
                    dsimp only
                    rw [if_neg h101]
                    rcases hres : decodeValueF (data.take k) fg pos with ⟨r4 | v4, q4⟩
                    all_goals rw [hres] at hveof
                    · simp at hveof
                      rw [hveof]
                    · exact absurd hveof (by simp)
end

/-- C5: decoding any strict prefix of a valid top-level Value encoding fails
with the end-of-stream kind Eof; and in read_bytes, a decoded length prefix
exceeding the remaining byte count is an Eof failure (at the cursor position
just after the colon), not any other error kind. -/
theorem c5_truncation_eof :
    (∀ (data : Bytes) (v : Value) (k : Nat), decodeV data = .ok v →
      k < data.length → decodeV (data.take k) = .error .eof)
    ∧ (∀ (data : Bytes) (pos n q1 q2 : Nat),
        readNumber parseUsize data pos = (.ok n, q1) →
        expectB data 58 q1 = (.ok (), q2) →
        remaining data q2 < n →
        readBytes data pos = (.error .eof, q2)) := by
  constructor
  · intro data v k hok hk
    unfold decodeV at hok
    rcases hdec : decodeValueF data (data.length + 1) 0 with ⟨r | w, p⟩ <;>
      rw [hdec] at hok
    · exact absurd hok (by simp)
    · dsimp only at hok
      unfold finish at hok
      split_ifs at hok with h0
      · have hple : p ≤ data.length := by
          have := decodeValueF_posLe (data.length + 1) data 0 (by omega)
          rw [hdec] at this
          exact this
        have hpe : p = data.length := by
          unfold remaining at h0
          omega
        have heof := (decodeValueF_take (k + 1) (data.length + 1) data 0 w p k hdec
          (by omega) (by omega)).2 (by omega)
        unfold decodeV
        have hlen : (data.take k).length = k := by
          simp only [List.length_take]
          omega
        rw [hlen]
        rcases hres : decodeValueF (data.take k) (k + 1) 0 with ⟨r2 | v2, p2⟩
        all_goals rw [hres] at heof
        · simp only at heof
          rw [heof]
        · exact absurd heof (by simp)
  · intro data pos n q1 q2 hnum hcol hrem
    unfold readBytes
    rw [hnum]
    dsimp only
    rw [hcol]
    dsimp only
    rw [if_pos hrem]

/-- Witness for C5: the 6-byte prefix d3:foo of the valid dict encoding
d3:foo3:bare decodes to Eof, and 10:foo fails in read_bytes with Eof at
position 3. -/
theorem c5_truncation_eof_witness :
    decodeV (([100, 51, 58, 102, 111, 111, 51, 58, 98, 97, 114, 101] : Bytes).take 6)
      = .error .eof
    ∧ readBytes [49, 48, 58, 102, 111, 111] 0 = (.error .eof, 3) :=
  ⟨c5_truncation_eof.1 [100, 51, 58, 102, 111, 111, 51, 58, 98, 97, 114, 101]
      (.dict [([102, 111, 111], .str [98, 97, 114])]) 6 (by rfl) (by decide),
   c5_truncation_eof.2 [49, 48, 58, 102, 111, 111] 0 10 2 3 (by rfl) (by rfl)
      (by decide)⟩
